import Mathlib

/-!
# Verification of the fin-ocr-sdk MICR localization / parsing core

Shallow embedding of the MICR-string parser (`checkUtil.ts`), the geometry
helpers (`util.ts`), the character segmenter (`line.ts`), the pixel-clearing
operations of the overlap corrector (`image.ts`, `curve.ts`, `line.ts`) and the
scan control flow (`check.ts`), together with theorems settling the frozen
claims about them.

Conventions: strings are modelled as `List Char`; machine numbers that are
integers in the source (pixel coordinates, counters) are modelled as `Int` or
`Nat`; the only fractional arithmetic needed (degree deltas) is modelled on
`ℚ`.  Fallible code returns `Option` or `Except`.
-/

set_option autoImplicit false

namespace FinOcr

/-! ## MICR string parser (`src/checkUtil.ts`, class `MicrParser`)

The parser pulls tokens (control characters `T`,`U`,`A`,`D` or digit runs)
from the string via `nextToken`/`nextChar`, silently skipping every character
outside the alphabet `TUAD0123456789`, and dispatches each token in a loop
that maintains the counters `tc`,`uc`,`ac`,`dc`, the last control token and
the four output fields.  In the source `lastControlToken` is assigned inside
`nextToken` when a control token is pulled; here the assignment is performed
by the dispatch step when it sees the control token, which is observationally
identical because every control token reaches the dispatch before the next
token is pulled. -/

/-- The parser's alphabet: characters of `"TUAD0123456789"`
(`MicrParser.nextChar` drops everything else). -/
def isMicrChar (c : Char) : Bool :=
  c = 'T' || c = 'U' || c = 'A' || c = 'D' ||
  c = '0' || c = '1' || c = '2' || c = '3' || c = '4' ||
  c = '5' || c = '6' || c = '7' || c = '8' || c = '9'

/-- Control characters: `"TUAD".indexOf(token) >= 0` in `nextToken`. -/
def isCtrlChar (c : Char) : Bool :=
  c = 'T' || c = 'U' || c = 'A' || c = 'D'

/-- Digit test of `nextToken`: `c >= '0' && c <= '9'`. -/
def isDigitCh (c : Char) : Bool :=
  '0' ≤ c && c ≤ '9'

/-- `MicrParser.nextChar`: advance over the string, skipping characters
outside the alphabet, returning the first alphabet character and the
remaining input (or `none` at end of string). -/
def micrNextChar : List Char → Option (Char × List Char)
  | [] => none
  | c :: rest => if isMicrChar c then some (c, rest) else micrNextChar rest

/-- The digit-accumulation loop inside `MicrParser.nextToken`: repeatedly pull
characters (skipping non-alphabet ones); digits are appended to the token;
the first control character is pushed back (`this.pushback()`), ending the
token.  Returns the accumulated digits and the remaining input. -/
def micrGrabDigits : List Char → List Char × List Char
  | [] => ([], [])
  | c :: rest =>
    if isMicrChar c then
      if isDigitCh c then
        let p := micrGrabDigits rest
        (c :: p.1, p.2)
      else ([], c :: rest)
    else micrGrabDigits rest

/-- A MICR token: a control character or a digit run. -/
inductive MicrTok where
  | ctrl (c : Char)
  | num (ds : List Char)
deriving DecidableEq, Repr

/-- `MicrParser.nextToken`: pull one character; a control character is a token
by itself; otherwise (a digit) the following digits are accumulated. -/
def micrNextToken (cs : List Char) : Option (MicrTok × List Char) :=
  match micrNextChar cs with
  | none => none
  | some (c, rest) =>
    if isCtrlChar c then some (.ctrl c, rest)
    else
      let p := micrGrabDigits rest
      some (.num (c :: p.1), p.2)

theorem micrNextChar_length {cs : List Char} {c : Char} {rest : List Char}
    (h : micrNextChar cs = some (c, rest)) : rest.length < cs.length := by
  induction cs with
  | nil => simp [micrNextChar] at h
  | cons a as ih =>
    rw [micrNextChar] at h
    by_cases ha : isMicrChar a
    · simp only [ha, if_pos, Option.some.injEq, Prod.mk.injEq] at h
      obtain ⟨-, h2⟩ := h
      subst h2
      simp only [List.length_cons]
      omega
    · simp only [ha, if_neg, Bool.false_eq_true, not_false_iff] at h
      have := ih h
      simp only [List.length_cons]
      omega

theorem micrGrabDigits_length (cs : List Char) :
    (micrGrabDigits cs).2.length ≤ cs.length := by
  induction cs with
  | nil => simp [micrGrabDigits]
  | cons a as ih =>
    rw [micrGrabDigits]
    by_cases hm : isMicrChar a
    · by_cases hd : isDigitCh a
      · simp only [hm, hd, if_pos]
        simpa using Nat.le_succ_of_le ih
      · simp [hm, hd]
    · simp only [hm, if_neg, Bool.false_eq_true, not_false_iff]
      exact Nat.le_succ_of_le ih

theorem micrNextToken_length {cs : List Char} {t : MicrTok} {rest : List Char}
    (h : micrNextToken cs = some (t, rest)) : rest.length < cs.length := by
  rw [micrNextToken] at h
  cases hnc : micrNextChar cs with
  | none => rw [hnc] at h; exact absurd h (by simp)
  | some p =>
    obtain ⟨c, r⟩ := p
    rw [hnc] at h
    have hr := micrNextChar_length hnc
    by_cases hc : isCtrlChar c
    · simp only [hc, if_pos, Option.some.injEq, Prod.mk.injEq] at h
      obtain ⟨-, h2⟩ := h
      subst h2
      exact hr
    · simp only [hc, if_neg, Bool.false_eq_true, not_false_iff,
        Option.some.injEq, Prod.mk.injEq] at h
      obtain ⟨-, h2⟩ := h
      subst h2
      have := micrGrabDigits_length r
      omega

/-- Worker for the token-pull loop of `MicrParser.getCheckInfo`: pull tokens
until `nextToken` returns the empty token.  Every successful pull consumes at
least one input character (`micrNextToken_length`), so running the worker
with fuel `cs.length` realizes the source's unbounded loop exactly
(`micrTokenizeAux_congr` below shows any sufficient fuel gives the same
result). -/
def micrTokenizeAux : Nat → List Char → List MicrTok
  | 0, _ => []
  | fuel + 1, cs =>
    match micrNextToken cs with
    | none => []
    | some (t, rest) => t :: micrTokenizeAux fuel rest

/-- The token-pull loop of `MicrParser.getCheckInfo` seen as a tokenizer:
the list of tokens `nextToken` yields until it returns the empty token. -/
def micrTokenize (cs : List Char) : List MicrTok :=
  micrTokenizeAux cs.length cs

theorem micrTokenizeAux_congr :
    ∀ (f g : Nat) (cs : List Char), cs.length ≤ f → cs.length ≤ g →
      micrTokenizeAux f cs = micrTokenizeAux g cs := by
  intro f
  induction f with
  | zero =>
    intro g cs hf _
    have : cs = [] := List.length_eq_zero.mp (Nat.le_zero.mp hf)
    subst this
    cases g with
    | zero => rfl
    | succ g => simp [micrTokenizeAux, micrNextToken, micrNextChar]
  | succ f ih =>
    intro g cs hf hg
    cases g with
    | zero =>
      have : cs = [] := List.length_eq_zero.mp (Nat.le_zero.mp hg)
      subst this
      simp [micrTokenizeAux, micrNextToken, micrNextChar]
    | succ g =>
      rw [micrTokenizeAux, micrTokenizeAux]
      cases ht : micrNextToken cs with
      | none => rfl
      | some p =>
        obtain ⟨t, rest⟩ := p
        have hlen := micrNextToken_length ht
        dsimp only
        rw [ih g rest (by omega) (by omega)]

/-- Parser loop state of `MicrParser.getCheckInfo`: the four accumulated
fields, the control-token counters and the last control token seen
(`""` initially, modelled as `none`). -/
structure MicrState where
  routingNumber : List Char
  accountNumber : List Char
  checkNumber : List Char
  amountNumber : List Char
  tc : Nat
  uc : Nat
  ac : Nat
  dc : Nat
  lastControlToken : Option Char
deriving DecidableEq, Repr

/-- Initial state of the `getCheckInfo` loop. -/
def micrInitState : MicrState :=
  { routingNumber := [], accountNumber := [], checkNumber := [],
    amountNumber := [], tc := 0, uc := 0, ac := 0, dc := 0,
    lastControlToken := none }

/-- One iteration of the `getCheckInfo` loop on a pulled token. -/
def micrStep (st : MicrState) (t : MicrTok) : MicrState :=
  match t with
  | .ctrl c =>
    let st := { st with lastControlToken := some c }
    if c = 'T' then { st with tc := st.tc + 1 }
    else if c = 'U' then { st with uc := st.uc + 1 }
    else if c = 'A' then { st with ac := st.ac + 1 }
    else { st with dc := st.dc + 1 }
  | .num ds =>
    if st.lastControlToken = some 'T' then
      if st.routingNumber.length = 0 then { st with routingNumber := ds }
      else { st with accountNumber := ds }
    else if st.ac = 1 then { st with amountNumber := ds }
    else if st.dc = 1 then st
    else if st.uc = 1 ∧ st.tc = 0 then { st with checkNumber := ds }
    else if st.routingNumber.length > 0 then
      if st.accountNumber.length = 0 then { st with accountNumber := ds }
      else if st.checkNumber.length = 0 then { st with checkNumber := ds }
      else st
    else st

/-- `Util.removeLeadingZeros`: `str.replace(/^0+/, '')`. -/
def removeLeadingZeros (s : List Char) : List Char :=
  s.dropWhile (· = '0')

/-- The `CheckInfo` record returned by the parser (`check.ts`). -/
structure CheckInfo where
  micrLine : List Char
  routingNumber : List Char
  accountNumber : List Char
  checkNumber : List Char
deriving DecidableEq, Repr

/-- `s.replace(/A/g,"T")` then `/B/g → "A"` then `/C/g → "U"`, as in the
`MicrParser` constructor. -/
def micrRemap (cs : List Char) : List Char :=
  ((cs.map fun c => if c = 'A' then 'T' else c).map
      fun c => if c = 'B' then 'A' else c).map
    fun c => if c = 'C' then 'U' else c

/-- The `MicrParser` constructor: when the input contains a `C`, translate the
legacy `ABCD` control characters to `TUAD` before parsing. -/
def micrNormalize (cs : List Char) : List Char :=
  if cs.contains 'C' then micrRemap cs else cs

/-- `MicrParser.getCheckInfo` applied to an already-normalized line: run the
token loop and strip leading zeros from the check number. -/
def getCheckInfo (micrLine : List Char) : CheckInfo :=
  let st := (micrTokenize micrLine).foldl micrStep micrInitState
  { micrLine := micrLine
    routingNumber := st.routingNumber
    accountNumber := st.accountNumber
    checkNumber := removeLeadingZeros st.checkNumber }

/-- `CheckUtil.micrToCheckInfo`: construct the parser (normalizing the line)
and return its `CheckInfo`. -/
def micrToCheckInfo (micr : List Char) : CheckInfo :=
  getCheckInfo (micrNormalize micr)

/-! ### Tokenizer lemmas: skipped characters are invisible -/

theorem micrNextChar_filter (cs : List Char) :
    micrNextChar (cs.filter isMicrChar) =
      (micrNextChar cs).map (fun p => (p.1, p.2.filter isMicrChar)) := by
  induction cs with
  | nil => simp [micrNextChar]
  | cons a as ih =>
    by_cases hm : isMicrChar a
    · rw [List.filter_cons_of_pos hm]
      rw [micrNextChar, micrNextChar]
      simp [hm]
    · rw [List.filter_cons_of_neg (by simpa using hm)]
      rw [micrNextChar]
      simp only [hm, if_neg, Bool.false_eq_true, not_false_iff]
      exact ih

theorem micrGrabDigits_filter (cs : List Char) :
    micrGrabDigits (cs.filter isMicrChar) =
      ((micrGrabDigits cs).1, (micrGrabDigits cs).2.filter isMicrChar) := by
  induction cs with
  | nil => simp [micrGrabDigits]
  | cons a as ih =>
    by_cases hm : isMicrChar a
    · rw [List.filter_cons_of_pos hm]
      rw [micrGrabDigits, micrGrabDigits]
      by_cases hd : isDigitCh a
      · simp only [hm, hd, if_pos]
        rw [ih]
      · simp only [hm, hd, if_pos, if_neg, Bool.false_eq_true, not_false_iff]
        rw [List.filter_cons_of_pos hm]
    · rw [List.filter_cons_of_neg (by simpa using hm)]
      rw [micrGrabDigits]
      simp only [hm, if_neg, Bool.false_eq_true, not_false_iff]
      exact ih

theorem micrNextToken_filter (cs : List Char) :
    micrNextToken (cs.filter isMicrChar) =
      (micrNextToken cs).map (fun p => (p.1, p.2.filter isMicrChar)) := by
  rw [micrNextToken, micrNextToken, micrNextChar_filter]
  cases hnc : micrNextChar cs with
  | none => rfl
  | some p =>
    obtain ⟨c, r⟩ := p
    dsimp only [Option.map_some, Option.map]
    by_cases hc : isCtrlChar c
    · simp [hc]
    · simp only [hc, if_neg, Bool.false_eq_true, not_false_iff]
      rw [micrGrabDigits_filter]

theorem micrTokenizeAux_filter :
    ∀ (fuel : Nat) (cs : List Char), cs.length ≤ fuel →
      micrTokenizeAux fuel (cs.filter isMicrChar) = micrTokenizeAux fuel cs := by
  intro fuel
  induction fuel with
  | zero => intro cs _; rfl
  | succ fuel ih =>
    intro cs hlen
    rw [micrTokenizeAux, micrTokenizeAux, micrNextToken_filter]
    cases ht : micrNextToken cs with
    | none => rfl
    | some p =>
      obtain ⟨t, rest⟩ := p
      have hlt := micrNextToken_length ht
      dsimp only [Option.map_some, Option.map]
      rw [ih rest (by omega)]

theorem micrTokenize_filter (cs : List Char) :
    micrTokenize cs = micrTokenize (cs.filter isMicrChar) := by
  rw [micrTokenize, micrTokenize]
  rw [micrTokenizeAux_congr (cs.filter isMicrChar).length cs.length
      (cs.filter isMicrChar) (le_refl _) (List.length_filter_le _ _)]
  rw [micrTokenizeAux_filter cs.length cs (le_refl _)]

/-! ### Claims C1, C2, C3, C10 -/

/-- C1: parsing the MICR string `"T123T456U789"` with `micrToCheckInfo`
returns routing number `"123"`, account number `"456"`, check number `"789"`,
and a `micrLine` field equal to the input string unchanged. -/
theorem claim1_micrToCheckInfo_example :
    micrToCheckInfo "T123T456U789".toList =
      { micrLine := "T123T456U789".toList, routingNumber := "123".toList,
        accountNumber := "456".toList, checkNumber := "789".toList } := by
  decide

/-- C2 (counterexample): in `"U1U2"` the digit run `"2"` follows the control
token `U` with `tc = 0` (the state after `U`,`1`,`U` has last control token
`U` and `tc = 0`), yet the parser does not assign it to `checkNumber`
(`uc = 2` at that point): the parsed check number is `"1"`, not `"2"`, and
stepping that state with the token `"2"` leaves `checkNumber` unchanged.
Also, in `"A5U7"` the digit run `"7"` follows `U` with `tc = 0` but is
assigned to the amount (since `ac = 1`), leaving `checkNumber` empty. -/
theorem claim2_counterexample :
    (((micrTokenize "U1U".toList).foldl micrStep micrInitState).lastControlToken
        = some 'U' ∧
      ((micrTokenize "U1U".toList).foldl micrStep micrInitState).tc = 0 ∧
      micrTokenize "U1U2".toList =
        micrTokenize "U1U".toList ++ [.num "2".toList] ∧
      (micrStep ((micrTokenize "U1U".toList).foldl micrStep micrInitState)
          (.num "2".toList)).checkNumber ≠ "2".toList ∧
      (micrToCheckInfo "U1U2".toList).checkNumber = "1".toList) ∧
    (((micrTokenize "A5U".toList).foldl micrStep micrInitState).lastControlToken
        = some 'U' ∧
      ((micrTokenize "A5U".toList).foldl micrStep micrInitState).tc = 0 ∧
      (micrToCheckInfo "A5U7".toList).checkNumber = []) := by
  decide

/-- C2 (amended): a digit-run token is assigned to `checkNumber` by the
auxiliary-on-us rule exactly when, at that point of the scan, the most recent
control token is not `T`, the `A` and `D` counters are not exactly 1, the `U`
counter is exactly 1 and the `T` counter is 0 (the parser condition
`uc == 1 && tc == 0` reached after falling through the `T`/amount/dash
cases). -/
theorem claim2_amended_checkNumber_rule (st : MicrState) (ds : List Char)
    (hlt : st.lastControlToken ≠ some 'T') (hac : st.ac ≠ 1) (hdc : st.dc ≠ 1)
    (huc : st.uc = 1) (htc : st.tc = 0) :
    (micrStep st (.num ds)).checkNumber = ds := by
  simp [micrStep, hlt, hac, hdc, huc, htc]

/-- Witness for the amended C2 rule at the state reached after `"U1"`. -/
theorem claim2_amended_checkNumber_rule_witness :
    (((micrTokenize "U1".toList).foldl micrStep micrInitState).lastControlToken
        ≠ some 'T' ∧
      ((micrTokenize "U1".toList).foldl micrStep micrInitState).ac ≠ 1 ∧
      ((micrTokenize "U1".toList).foldl micrStep micrInitState).dc ≠ 1 ∧
      ((micrTokenize "U1".toList).foldl micrStep micrInitState).uc = 1 ∧
      ((micrTokenize "U1".toList).foldl micrStep micrInitState).tc = 0) ∧
    (micrStep ((micrTokenize "U1".toList).foldl micrStep micrInitState)
        (.num "2".toList)).checkNumber = "2".toList :=
  ⟨by decide,
    claim2_amended_checkNumber_rule _ _ (by decide) (by decide) (by decide)
      (by decide) (by decide)⟩

/-- C3: an input containing `'C'` is first remapped (`A→T`, `B→A`, `C→U`,
globally, in that order) and then parsed; an input without `'C'` is parsed
literally.  In particular `"U12U T34T 56"` yields routing `"34"`, account
`"56"`, check `"12"`, and `"C12C A34A 56"` yields the same three values
after remapping. -/
theorem claim3_legacy_remap :
    (∀ cs : List Char, 'C' ∈ cs → micrToCheckInfo cs = getCheckInfo (micrRemap cs)) ∧
    (∀ cs : List Char, 'C' ∉ cs → micrToCheckInfo cs = getCheckInfo cs) ∧
    ((micrToCheckInfo "U12U T34T 56".toList).routingNumber = "34".toList ∧
      (micrToCheckInfo "U12U T34T 56".toList).accountNumber = "56".toList ∧
      (micrToCheckInfo "U12U T34T 56".toList).checkNumber = "12".toList) ∧
    ((micrToCheckInfo "C12C A34A 56".toList).routingNumber = "34".toList ∧
      (micrToCheckInfo "C12C A34A 56".toList).accountNumber = "56".toList ∧
      (micrToCheckInfo "C12C A34A 56".toList).checkNumber = "12".toList) := by
  refine ⟨?_, ?_, by decide, by decide⟩
  · intro cs h
    rw [micrToCheckInfo, micrNormalize, if_pos (by simpa using h)]
  · intro cs h
    rw [micrToCheckInfo, micrNormalize, if_neg (by simpa using h)]

/-- Witness for C3 applied to the two literal inputs of the claim. -/
theorem claim3_legacy_remap_witness :
    ('C' ∈ "C12C A34A 56".toList ∧
      micrToCheckInfo "C12C A34A 56".toList =
        getCheckInfo (micrRemap "C12C A34A 56".toList)) ∧
    ('C' ∉ "U12U T34T 56".toList ∧
      micrToCheckInfo "U12U T34T 56".toList =
        getCheckInfo "U12U T34T 56".toList) :=
  ⟨⟨by decide, claim3_legacy_remap.1 _ (by decide)⟩,
    ⟨by decide, claim3_legacy_remap.2.1 _ (by decide)⟩⟩

/-- C10: the tokenizer of the MICR parser silently discards every character
outside the alphabet `"TUAD0123456789"` (tokenizing a string equals
tokenizing its restriction to the alphabet, and inserting a run of
non-alphabet characters anywhere never changes the token list); consequently
two digit runs separated only by such characters are merged into a single
number token, e.g. `"12 34"` and `"12xy34"` both tokenize to the single
token `"1234"`. -/
theorem claim10_tokenizer_discards :
    (∀ cs : List Char, micrTokenize cs = micrTokenize (cs.filter isMicrChar)) ∧
    (∀ a junk b : List Char, (∀ c ∈ junk, isMicrChar c = false) →
      micrTokenize (a ++ junk ++ b) = micrTokenize (a ++ b)) ∧
    micrTokenize "12 34".toList = [.num "1234".toList] ∧
    micrTokenize "12xy34".toList = [.num "1234".toList] := by
  refine ⟨micrTokenize_filter, ?_, by decide, by decide⟩
  intro a junk b hj
  rw [micrTokenize_filter (a ++ junk ++ b), micrTokenize_filter (a ++ b)]
  have hjf : junk.filter isMicrChar = [] := by
    rw [List.filter_eq_nil_iff]
    intro c hc
    simp [hj c hc]
  rw [List.filter_append, List.filter_append, hjf, List.filter_append,
    List.append_nil]

/-- Witness for C10 with a concrete junk insertion. -/
theorem claim10_tokenizer_discards_witness :
    (∀ c ∈ " xy".toList, isMicrChar c = false) ∧
    micrTokenize ("12".toList ++ " xy".toList ++ "34".toList) =
      micrTokenize ("12".toList ++ "34".toList) :=
  ⟨by decide, claim10_tokenizer_discards.2.1 _ _ _ (by decide)⟩

/-! ## Degree arithmetic (`src/util.ts`, `Util.degreeDelta`)

Degrees are plain JavaScript numbers; the operations used by `degreeDelta`
(subtraction, absolute value, comparison with the integers 180 and 360) are
exact on the rationals, so it is modelled on `ℚ`. -/

/-- `Util.degreeDelta`: `delta = |d2 - d1|; if (delta > 180) delta = 360 - delta`. -/
def degreeDelta (d1 d2 : ℚ) : ℚ :=
  let delta := |d2 - d1|
  if delta > 180 then 360 - delta else delta

/-- C9: for all degree values `a`, `b` in `[0, 360]`, `degreeDelta a b` lies
in `[0, 180]` and `degreeDelta a b = degreeDelta b a`. -/
theorem claim9_degreeDelta_range_symm (a b : ℚ)
    (ha0 : 0 ≤ a) (ha : a ≤ 360) (hb0 : 0 ≤ b) (hb : b ≤ 360) :
    0 ≤ degreeDelta a b ∧ degreeDelta a b ≤ 180 ∧
      degreeDelta a b = degreeDelta b a := by
  have habs : |b - a| ≤ 360 := abs_le.mpr ⟨by linarith, by linarith⟩
  have h0 : 0 ≤ |b - a| := abs_nonneg _
  have hsym : |a - b| = |b - a| := abs_sub_comm a b
  simp only [degreeDelta, hsym]
  split_ifs with h
  · exact ⟨by linarith, by linarith, trivial⟩
  · exact ⟨h0, by linarith, trivial⟩

/-- Witness for C9 at `a = 10`, `b = 350` (where the wrap-around branch
fires and the delta is 20). -/
theorem claim9_degreeDelta_range_symm_witness :
    (0 ≤ (10 : ℚ) ∧ (10 : ℚ) ≤ 360 ∧ 0 ≤ (350 : ℚ) ∧ (350 : ℚ) ≤ 360) ∧
    (0 ≤ degreeDelta 10 350 ∧ degreeDelta 10 350 ≤ 180 ∧
      degreeDelta 10 350 = degreeDelta 350 10) :=
  ⟨by norm_num,
    claim9_degreeDelta_range_symm 10 350 (by norm_num) (by norm_num)
      (by norm_num) (by norm_num)⟩

/-! ## Shared geometry (`src/util.ts`)

Rectangles carry integer pixel coordinates (`cv.Rect`). -/

/-- `cv.Rect`. -/
structure Rect where
  x : Int
  y : Int
  width : Int
  height : Int
deriving DecidableEq, Repr

/-! ## Scan control flow (`src/check.ts`)

`Check.scan` decodes and preprocesses the image, finds the MICR line
(`getMicrLine` → `findMicrLine` → `findMicrLineInfo`), translates it when
found, parses each translator value with `CheckUtil.micrToCheckInfo`, runs
the full-page check-number fallback, and assembles the response.  The
OpenCV-backed collaborators are opaque here and enter as parameters: the
contour lists produced by `getContours`, the template-match score of a
contour against the zero glyph (`translator.getMatchScore`), and the `Line`
constructor's outcome (`isInitialized`, `overlap`).  Exceptions are modelled
by `Except`: a thrown error is `.error`, a normal return is `.ok`. -/

/-- The data of a `Contour` consumed by `findMicrLineInfo`: index, bounding
rectangle, and the filled area `area2` (`cv.contourArea`). -/
structure ContourS where
  idx : Int
  rect : Rect
  area2 : ℚ
deriving DecidableEq, Repr

/-- JavaScript `opts.stopScore || 90` (`0` is falsy). -/
def jsStopScore (v : Option ℚ) : ℚ :=
  match v with
  | none => 90
  | some x => if x = 0 then 90 else x

/-- `Contour.filter` restricted to the three options that
`findMicrLineInfo` passes (`minWidth`, `minHeight`, `minArea`); a threshold
of `0` is falsy in JS and disables its test.  Returns `true` when the
contour is to be dropped. -/
def contourFilterDrop (minWidth minHeight minArea : ℚ) (c : ContourS) : Bool :=
  (decide (minWidth ≠ 0) && decide ((c.rect.width : ℚ) < minWidth)) ||
  (decide (minHeight ≠ 0) && decide ((c.rect.height : ℚ) < minHeight)) ||
  (decide (minArea ≠ 0) && decide (c.area2 < minArea))

/-- `Util.filterContours`: keep the contours the filter does not drop. -/
def filterContoursBy (drop : ContourS → Bool) (cs : List ContourS) : List ContourS :=
  cs.filter (fun c => !(drop c))

/-- The contour filter applied after the anchor `bc` is found:
`minArea = 0.03·area2(bc)`, `minHeight = 0.1·height(bc)`,
`minWidth = 0.08·width(bc)`. -/
def micrFilterContours (bc : ContourS) (cs : List ContourS) : List ContourS :=
  filterContoursBy
    (contourFilterDrop ((bc.rect.width : ℚ) * (8 / 100))
      ((bc.rect.height : ℚ) * (1 / 10)) (bc.area2 * (3 / 100))) cs

/-- `contours.sort((a, b) => b.rect.y - a.rect.y)`: stable sort bottom-to-top
(descending `y`). -/
def sortBottomUp (cs : List ContourS) : List ContourS :=
  cs.insertionSort (fun a b => b.rect.y ≤ a.rect.y)

/-- The anchor-search loop of `findMicrLineInfo`: scan the (bottom-up
sorted) contours, keeping the best zero-match score, with an early exit as
soon as the best score reaches `stopScore`. -/
def bestZeroLoop (stopScore : ℚ) (score : ContourS → ℚ) :
    List ContourS → ℚ → Option ContourS → Option ContourS
  | [], _, best => best
  | c :: rest, bestScore, best =>
    if score c > bestScore then
      if score c ≥ stopScore then some c
      else bestZeroLoop stopScore score rest (score c) (some c)
    else bestZeroLoop stopScore score rest bestScore best

/-- `Check.findMicrLineInfo`: sort contours bottom-up, require the zero
reference glyph (else throw), search for the anchor (best zero match), give
up (`none`) if no contour scored, filter the contours by the anchor-derived
thresholds, build the `Line` and give up if it reports uninitialized.  The
`Line` construction is opaque: `lineInit bc filtered` tells whether
`new Line(count, img, bc, filtered, …).isInitialized()` holds.  On success
the anchor and the filtered contour list are returned. -/
def findMicrLineInfo (stopScore : Option ℚ) (zeroTemplate : Bool)
    (score : ContourS → ℚ) (lineInit : ContourS → List ContourS → Bool)
    (contours : List ContourS) :
    Except String (Option (ContourS × List ContourS)) :=
  let sorted := sortBottomUp contours
  if !zeroTemplate then .error "Could not find a zero match element"
  else
    match bestZeroLoop (jsStopScore stopScore) score sorted 0 none with
    | none => .ok none
    | some bc =>
      let filtered := micrFilterContours bc sorted
      if lineInit bc filtered then .ok (some (bc, filtered))
      else .ok none

/-- The opaque collaborators of one `findMicrLine` run: the zero reference
glyph's presence, and for each of the two `findMicrLineInfo` attempts (the
second on the overlap-corrected image) the contour list, the match-score
function, and the `Line` construction outcomes. -/
structure MicrPipelineEnv where
  zeroTemplate : Bool
  contours1 : List ContourS
  score1 : ContourS → ℚ
  lineInit1 : ContourS → List ContourS → Bool
  lineOverlap1 : ContourS → List ContourS → Bool
  overlapCorrection : Bool
  contours2 : List ContourS
  score2 : ContourS → ℚ
  lineInit2 : ContourS → List ContourS → Bool
  lineOverlap2 : ContourS → List ContourS → Bool

/-- `Check.findMicrLine`: first `findMicrLineInfo` attempt; when the found
line reports overlap and overlap correction is enabled, perform the
correction and re-run `findMicrLineInfo` on the corrected image.  Returns
the line (modelled by its anchor) together with its `overlap` flag. -/
def findMicrLine (env : MicrPipelineEnv) (stopScore : Option ℚ) :
    Except String (Option (ContourS × Bool)) := do
  let li1 ← findMicrLineInfo stopScore env.zeroTemplate env.score1
    env.lineInit1 env.contours1
  match li1 with
  | none => return none
  | some (bc1, f1) =>
    if env.lineOverlap1 bc1 f1 && env.overlapCorrection then do
      let li2 ← findMicrLineInfo stopScore env.zeroTemplate env.score2
        env.lineInit2 env.contours2
      match li2 with
      | none => return none
      | some (bc2, f2) => return some (bc2, env.lineOverlap2 bc2 f2)
    else
      return some (bc1, env.lineOverlap1 bc1 f1)

/-- The scan response fields the claims are about (`CheckScanResponse`):
the per-translator parse results and the overlap flag. -/
structure CheckScanResponse where
  id : List Char
  translators : List (List Char × CheckInfo)
  overlap : Bool
deriving DecidableEq, Repr

/-- `Util.getIndexOfFirstContaining`: index of the first string containing
`s`, or `-1`. -/
def getIndexOfFirstContaining (strs : List (List Char)) (s : List Char) : Int :=
  match strs.findIdx? (fun l => decide (s <:+: l)) with
  | some i => (i : Int)
  | none => -1

/-- `Util.isNumeric`: `/^-?\d+$/`. -/
def isNumericStr (s : List Char) : Bool :=
  match s with
  | '-' :: rest => !rest.isEmpty && rest.all isDigitCh
  | _ => !s.isEmpty && s.all isDigitCh

/-- `Check.getCheckNumFromParts`. -/
def getCheckNumFromParts (parts : List (List Char)) : Option (List Char) :=
  let p2 := parts.getD 2 []
  if parts.length > 2 && !p2.isEmpty && isNumericStr p2 then some p2
  else if parts.length > 1 then some (parts.getD 1 [])
  else none

/-- `Check.searchForCheckNumberIfNotFoundOnMicrLine`: when no translator
found a check number, ask the full-page translator (opaque; its enablement
and output text are parameters) and, if a check number is recovered from
the line after the one containing `"Check No"`, write it into every
translator result. -/
def searchForCheckNumber (translators : List (List Char × CheckInfo))
    (tesseractEnabled : Bool) (hasFullImage : Bool)
    (tesseractValue : List Char) : List (List Char × CheckInfo) :=
  if translators.any (fun p => !p.2.checkNumber.isEmpty) then translators
  else if translators.isEmpty then translators
  else if !tesseractEnabled then translators
  else if !hasFullImage then translators
  else
    let lines := tesseractValue.splitOn '\n'
    let lineIdx := getIndexOfFirstContaining lines "Check No".toList
    if lineIdx ≥ 0 ∧ lineIdx + 1 < (lines.length : Int) then
      let parts := (lines.getD (lineIdx + 1).toNat []).splitOn ' '
      match getCheckNumFromParts parts with
      | some checkNum =>
        if !checkNum.isEmpty then
          translators.map (fun p => (p.1, { p.2 with checkNumber := checkNum }))
        else translators
      | none => translators
    else translators

/-- `Check.scan`: find the MICR line; translate it when found (the
translator outputs are the opaque parameter `translateValues`, used only
when a line was found); parse each translator value with
`CheckUtil.micrToCheckInfo`; run the check-number fallback; report
`overlap` from the found line (the `Check.overlap` field stays `false` when
no line was found). -/
def scan (id : List Char) (env : MicrPipelineEnv)
    (translateValues : List (List Char × List Char))
    (tesseractEnabled : Bool) (tesseractValue : List Char) :
    Except String CheckScanResponse := do
  let micrLine ← findMicrLine env none
  let results : List (List Char × List Char) :=
    match micrLine with
    | some _ => translateValues
    | none => []
  let translators := results.map fun p => (p.1, micrToCheckInfo p.2)
  let translators :=
    searchForCheckNumber translators tesseractEnabled true tesseractValue
  let overlap :=
    match micrLine with
    | some (_, ov) => ov
    | none => false
  return { id := id, translators := translators, overlap := overlap }

theorem searchForCheckNumber_nil (te hfi : Bool) (tval : List Char) :
    searchForCheckNumber [] te hfi tval = [] := rfl

/-- C4: soft detection failures surface no exception and produce an empty
response.  (i) When no contour scores against the zero glyph the attempt
returns `none` (not an error); (ii) likewise when the line is not
initialized; (iii) when the first attempt yields no line, `scan` returns
normally with an empty translators map and `overlap = false`; (iv) the same
when the line is only lost on the second attempt after overlap
correction. -/
theorem claim4_scan_soft_failure :
    (∀ (stop : Option ℚ) (sc : ContourS → ℚ)
        (li : ContourS → List ContourS → Bool) (cs : List ContourS),
      bestZeroLoop (jsStopScore stop) sc (sortBottomUp cs) 0 none = none →
      findMicrLineInfo stop true sc li cs = .ok none) ∧
    (∀ (stop : Option ℚ) (sc : ContourS → ℚ)
        (li : ContourS → List ContourS → Bool) (cs : List ContourS)
        (bc : ContourS),
      bestZeroLoop (jsStopScore stop) sc (sortBottomUp cs) 0 none = some bc →
      li bc (micrFilterContours bc (sortBottomUp cs)) = false →
      findMicrLineInfo stop true sc li cs = .ok none) ∧
    (∀ (id : List Char) (env : MicrPipelineEnv)
        (tv : List (List Char × List Char)) (te : Bool) (tval : List Char),
      findMicrLineInfo none env.zeroTemplate env.score1 env.lineInit1
          env.contours1 = .ok none →
      scan id env tv te tval =
        .ok { id := id, translators := [], overlap := false }) ∧
    (∀ (id : List Char) (env : MicrPipelineEnv)
        (tv : List (List Char × List Char)) (te : Bool) (tval : List Char)
        (bc : ContourS) (f : List ContourS),
      findMicrLineInfo none env.zeroTemplate env.score1 env.lineInit1
          env.contours1 = .ok (some (bc, f)) →
      env.lineOverlap1 bc f = true → env.overlapCorrection = true →
      findMicrLineInfo none env.zeroTemplate env.score2 env.lineInit2
          env.contours2 = .ok none →
      scan id env tv te tval =
        .ok { id := id, translators := [], overlap := false }) := by
  refine ⟨?_, ?_, ?_, ?_⟩
  · intro stop sc li cs h
    rw [findMicrLineInfo]
    simp only [Bool.not_true, Bool.false_eq_true, if_neg, not_false_iff]
    rw [h]
  · intro stop sc li cs bc h hli
    rw [findMicrLineInfo]
    simp only [Bool.not_true, Bool.false_eq_true, if_neg, not_false_iff]
    rw [h]
    simp [hli]
  · intro id env tv te tval h
    simp [scan, findMicrLine, h, bind, Except.bind, pure, Except.pure,
      searchForCheckNumber_nil]
  · intro id env tv te tval bc f h hov hcor h2
    simp [scan, findMicrLine, h, hov, hcor, h2, bind, Except.bind, pure,
      Except.pure, searchForCheckNumber_nil]

/-- Witness for C4: a concrete environment with no contours at all (so the
anchor is never found) makes `scan` return the empty response. -/
theorem claim4_scan_soft_failure_witness :
    (findMicrLineInfo none true (fun _ => 0) (fun _ _ => false) [] =
      .ok none) ∧
    scan "c1".toList
        { zeroTemplate := true, contours1 := [], score1 := fun _ => 0,
          lineInit1 := fun _ _ => false, lineOverlap1 := fun _ _ => false,
          overlapCorrection := true, contours2 := [], score2 := fun _ => 0,
          lineInit2 := fun _ _ => false, lineOverlap2 := fun _ _ => false }
        [("opencv".toList, "T123T456U789".toList)] true [] =
      .ok { id := "c1".toList, translators := [], overlap := false } :=
  ⟨rfl,
    claim4_scan_soft_failure.2.2.1 _
      { zeroTemplate := true, contours1 := [], score1 := fun _ => 0,
        lineInit1 := fun _ _ => false, lineOverlap1 := fun _ _ => false,
        overlapCorrection := true, contours2 := [], score2 := fun _ => 0,
        lineInit2 := fun _ _ => false, lineOverlap2 := fun _ _ => false }
      _ _ _ rfl⟩

/-! ## Binary image model (`src/image.ts`)

A binarized image: a width, a height, and the pixel predicate behind
`isSet`/`unSet` (`getPixelVal(x, y) > 128`, with the polarity the pipeline
uses after binarization).  Reads and writes outside the
`[0, width) × [0, height)` domain are modelled as ordinary function
application; the foreground count only looks inside the domain. -/

structure MinMaxI where
  min : Int
  max : Int
deriving DecidableEq, Repr

structure MMRect where
  x : MinMaxI
  y : MinMaxI
deriving DecidableEq, Repr

/-- `Util.toMinMaxRect`. -/
def toMinMaxRect (r : Rect) : MMRect :=
  ⟨⟨r.x, r.x + r.width - 1⟩, ⟨r.y, r.y + r.height - 1⟩⟩

structure Img where
  width : Nat
  height : Nat
  px : Int → Int → Bool

/-- Number of foreground (`isSet`) pixels inside the image domain. -/
def countFg (img : Img) : Nat :=
  ((Finset.range img.width ×ˢ Finset.range img.height).filter
    (fun p => img.px (p.1 : Int) (p.2 : Int))).card

/-- `Image.unSet`. -/
def unSet (img : Img) (x y : Int) : Img :=
  { img with px := fun a b => if a = x ∧ b = y then false else img.px a b }

/-- `Image.clearByBoundary`: draw the filled polygon of the boundary points
on a blank mask (`cv.drawContours`), invert it, and bitwise-and it with the
image — so a pixel survives only where the rasterized polygon is absent.
The polygon rasterization is OpenCV's; it enters as the opaque parameter
`raster` mapping the boundary points to the filled region. -/
def clearByBoundary (raster : List (Int × Int) → Int → Int → Bool)
    (img : Img) (points : List (Int × Int)) : Img :=
  { img with px := fun a b => img.px a b && !(raster points a b) }

/-- `Image.clearPadding`: clear the `padding`-wide strips along the four
borders (each strip's other coordinate ranges over the full image). -/
def clearPadding (img : Img) (padding : Int) : Img :=
  { img with px := fun a b =>
      if (0 ≤ a ∧ a < (img.width : Int)) ∧ 0 ≤ b ∧ b < padding then false
      else if (0 ≤ a ∧ a < (img.width : Int)) ∧
          (img.height : Int) - padding ≤ b ∧ b < (img.height : Int) then false
      else if (0 ≤ a ∧ a < padding) ∧ 0 ≤ b ∧ b < (img.height : Int) then false
      else if ((img.width : Int) - padding ≤ a ∧ a < (img.width : Int)) ∧
          0 ≤ b ∧ b < (img.height : Int) then false
      else img.px a b }

/-- The integers from `lo` to `hi` inclusive (empty when `hi < lo`). -/
def intRangeIncl (lo hi : Int) : List Int :=
  (List.range (hi + 1 - lo).toNat).map (fun i => lo + (i : Int))

/-- `Image.getHCount`: 1 plus the contiguous runs of set pixels to the right
and to the left of `(x, y)`, stopping at the first unset pixel or at the
rectangle bounds. -/
def getHCount (img : Img) (x y : Int) (r : MMRect) : Nat :=
  1 + ((intRangeIncl (x + 1) r.x.max).takeWhile (fun a => img.px a y)).length
    + (((intRangeIncl r.x.min (x - 1)).reverse.takeWhile
        (fun a => img.px a y)).length)

/-- `Image.getVCount`: the vertical analogue of `getHCount`. -/
def getVCount (img : Img) (x y : Int) (r : MMRect) : Nat :=
  1 + ((intRangeIncl (y + 1) r.y.max).takeWhile (fun b => img.px x b)).length
    + (((intRangeIncl r.y.min (y - 1)).reverse.takeWhile
        (fun b => img.px x b)).length)

/-- The coordinates visited by `hvThinIteration`, x-major as in the source. -/
def mmRectCoords (r : MMRect) : List (Int × Int) :=
  (intRangeIncl r.x.min r.x.max).flatMap
    (fun x => (intRangeIncl r.y.min r.y.max).map (fun y => (x, y)))

/-- One visit of `hvThinIteration`: clear the pixel (in place — later pixels
of the same sweep see the cleared state, as in the source) when both its
horizontal and vertical runs are below the thresholds; track whether
anything changed. -/
def hvThinIterStep (minH minV : Int) (r : MMRect) (acc : Img × Bool)
    (p : Int × Int) : Img × Bool :=
  if !(acc.1.px p.1 p.2) then acc
  else if (getHCount acc.1 p.1 p.2 r : Int) < minH ∧
      (getVCount acc.1 p.1 p.2 r : Int) < minV then
    (unSet acc.1 p.1 p.2, true)
  else acc

/-- `Image.hvThinIteration`. -/
def hvThinIteration (minH minV : Int) (r : MMRect) (img : Img) : Img × Bool :=
  (mmRectCoords r).foldl (hvThinIterStep minH minV r) (img, false)

/-- The `hvThin` loop: run iterations, stopping when an iteration changes
nothing or when `count` reaches `maxIterations` (the fuel); returns the
image and the number of iterations performed. -/
def hvThinAux (minH minV : Int) (r : MMRect) :
    Nat → Img → Nat → Img × Nat
  | 0, img, count => (img, count)
  | fuel + 1, img, count =>
    let it := hvThinIteration minH minV r img
    if !it.2 then (it.1, count + 1)
    else hvThinAux minH minV r fuel it.1 (count + 1)

/-- `Image.hvThin` with its iteration cap (`opts.maxIterations || 100`, so
the overlap corrector always runs with 100). -/
def hvThin (minH minV : Int) (rect : Rect) (maxIterations : Nat)
    (img : Img) : Img × Nat :=
  hvThinAux minH minV (toMinMaxRect rect) maxIterations img 0

/-- The per-column scan of `clearByVerticalThickness`: the first and last
set `y` in column `x` within the rectangle's Y range, if any. -/
def columnRun (img : Img) (x ymin ymax : Int) : Option (Int × Int) :=
  (intRangeIncl ymin ymax).foldl
    (fun acc y =>
      if img.px x y then
        match acc with
        | none => some (y, y)
        | some (a, _) => some (a, y)
      else acc)
    none

/-- One column step of `clearByVerticalThickness`: thin columns are
accumulated into a run starting at `x1`; when a non-thin column ends a run,
the run's rectangle (including the current column) is cleared via
`clearByBoundary`. -/
def cvtStep (raster : List (Int × Int) → Int → Int → Bool)
    (vthresh : Int) (r : MMRect) (acc : Img × Option Int) (x : Int) :
    Img × Option Int :=
  let isThin :=
    match columnRun acc.1 x r.y.min r.y.max with
    | some (y1, y2) => decide (y2 - y1 ≤ vthresh)
    | none => false
  if isThin then
    match acc.2 with
    | none => (acc.1, some x)
    | some _ => acc
  else
    match acc.2 with
    | some a =>
      (clearByBoundary raster acc.1
        [(a, r.y.min), (x, r.y.min), (x, r.y.max), (a, r.y.max)], none)
    | none => (acc.1, none)

/-- `Image.clearByVerticalThickness`: sweep the columns left-to-right
clearing runs of thin columns; a run still open at the end is cleared up to
the rectangle's right edge. -/
def clearByVerticalThickness (raster : List (Int × Int) → Int → Int → Bool)
    (vthresh : Int) (rect : Rect) (img : Img) : Img :=
  let r := toMinMaxRect rect
  let res := (intRangeIncl r.x.min r.x.max).foldl (cvtStep raster vthresh r)
    (img, none)
  match res.2 with
  | some a =>
    clearByBoundary raster res.1
      [(a, r.y.min), (r.x.max, r.y.min), (r.x.max, r.y.max), (a, r.y.max)]
  | none => res.1

/-- `Curves.clear` (`src/curve.ts`): the curve-following engine reads pixels
to trace the two edges of each ink curve and erases the enclosed regions —
its only writes to the image go through `Curve.clear`, which passes the
accumulated edge-point polygon to `clearByBoundary`.  The polygons it
computes enter as the opaque list `polys`. -/
def curvesClear (raster : List (Int × Int) → Int → Int → Bool)
    (img : Img) (polys : List (List (Int × Int))) : Img :=
  polys.foldl (clearByBoundary raster) img

/-- `Image.roi` + `copyTo`: copy the sub-rectangle into a fresh image. -/
def roi (img : Img) (r : Rect) : Img :=
  { width := r.width.toNat, height := r.height.toNat,
    px := fun a b => img.px (a + r.x) (b + r.y) }

/-- `Util.enlargeRect` with a uniform `pad` (as the overlap corrector calls
it): grow by `pad` on each side, clamped to the image. -/
def enlargeRect (rect : Rect) (sizeW sizeH : Int) (pad : Int) : Rect :=
  let X := max 0 (rect.x - pad)
  let Y := max 0 (rect.y - pad)
  let W := min (sizeW - X) (rect.width + pad + pad)
  let H := min (sizeH - Y) (rect.height + pad + pad)
  ⟨X, Y, W, H⟩

/-- `Line.performOverlapCorrection` (`src/line.ts`): take a padded ROI
around the line's bounding rectangle, clear the curves of every ROI contour
touching the top border, clear the padding strips, then clear thin columns
and HV-thin each top-touching contour's rectangle.  The ROI's contour
rectangles (`img.getContours()`) and the polygons the curve engine clears
for the `i`-th contour are opaque parameters. -/
def performOverlapCorrection (raster : List (Int × Int) → Int → Int → Bool)
    (pad : Int) (contours : List Rect)
    (curvePolys : Nat → List (List (Int × Int)))
    (vthresh minH minV : Int) (boundingRect : Rect) (img0 : Img) : Img :=
  let img := roi img0
    (enlargeRect boundingRect (img0.width : Int) (img0.height : Int) pad)
  let img := (contours.zip (List.range contours.length)).foldl
    (fun im p => if p.1.y = 0 then curvesClear raster im (curvePolys p.2) else im)
    img
  let img := clearPadding img pad
  contours.foldl
    (fun im c =>
      if c.y = 0 then
        let im := clearByVerticalThickness raster vthresh c im
        (hvThin minH minV c 100 im).1
      else im)
    img

/-! ### Clear-only facts and foreground-count monotonicity (C7) -/

/-- `a` refines `b`: same dimensions and no pixel set in `a` that is unset
in `b`. -/
def ImgLe (a b : Img) : Prop :=
  a.width = b.width ∧ a.height = b.height ∧
    ∀ x y, a.px x y = true → b.px x y = true

theorem ImgLe.refl (a : Img) : ImgLe a a :=
  ⟨rfl, rfl, fun _ _ h => h⟩

theorem ImgLe.trans {a b c : Img} (h1 : ImgLe a b) (h2 : ImgLe b c) :
    ImgLe a c :=
  ⟨h1.1.trans h2.1, h1.2.1.trans h2.2.1,
    fun x y h => h2.2.2 x y (h1.2.2 x y h)⟩

theorem unSet_le (img : Img) (x y : Int) : ImgLe (unSet img x y) img := by
  refine ⟨rfl, rfl, fun a b h => ?_⟩
  rw [unSet] at h
  dsimp only at h
  split_ifs at h
  exact h

theorem clearByBoundary_le (raster : List (Int × Int) → Int → Int → Bool)
    (img : Img) (pts : List (Int × Int)) :
    ImgLe (clearByBoundary raster img pts) img := by
  refine ⟨rfl, rfl, fun a b h => ?_⟩
  simp only [clearByBoundary, Bool.and_eq_true] at h
  exact h.1

theorem clearPadding_le (img : Img) (pad : Int) :
    ImgLe (clearPadding img pad) img := by
  refine ⟨rfl, rfl, fun a b h => ?_⟩
  simp only [clearPadding] at h
  split_ifs at h
  exact h

theorem foldl_imgLe {β : Type} (step : Img → β → Img)
    (hstep : ∀ im b, ImgLe (step im b) im) :
    ∀ (l : List β) (img : Img), ImgLe (l.foldl step img) img := by
  intro l
  induction l with
  | nil => intro img; exact ImgLe.refl img
  | cons b bs ih =>
    intro img
    exact (ih (step img b)).trans (hstep img b)

theorem foldl_fst_imgLe {σ β : Type} (step : Img × σ → β → Img × σ)
    (hstep : ∀ acc b, ImgLe (step acc b).1 acc.1) :
    ∀ (l : List β) (acc : Img × σ), ImgLe (l.foldl step acc).1 acc.1 := by
  intro l
  induction l with
  | nil => intro acc; exact ImgLe.refl acc.1
  | cons b bs ih =>
    intro acc
    exact (ih (step acc b)).trans (hstep acc b)

theorem hvThinIterStep_le (minH minV : Int) (r : MMRect)
    (acc : Img × Bool) (p : Int × Int) :
    ImgLe (hvThinIterStep minH minV r acc p).1 acc.1 := by
  rw [hvThinIterStep]
  split_ifs
  · exact ImgLe.refl acc.1
  · exact unSet_le acc.1 p.1 p.2
  · exact ImgLe.refl acc.1

theorem hvThinIteration_le (minH minV : Int) (r : MMRect) (img : Img) :
    ImgLe (hvThinIteration minH minV r img).1 img :=
  foldl_fst_imgLe _ (hvThinIterStep_le minH minV r) _ (img, false)

theorem hvThinAux_le (minH minV : Int) (r : MMRect) :
    ∀ (fuel : Nat) (img : Img) (count : Nat),
      ImgLe (hvThinAux minH minV r fuel img count).1 img := by
  intro fuel
  induction fuel with
  | zero => intro img count; exact ImgLe.refl img
  | succ fuel ih =>
    intro img count
    rw [hvThinAux]
    split_ifs
    · exact hvThinIteration_le minH minV r img
    · exact (ih _ _).trans (hvThinIteration_le minH minV r img)

theorem hvThin_le (minH minV : Int) (rect : Rect) (maxIterations : Nat)
    (img : Img) : ImgLe (hvThin minH minV rect maxIterations img).1 img :=
  hvThinAux_le minH minV (toMinMaxRect rect) maxIterations img 0

theorem cvtStep_le (raster : List (Int × Int) → Int → Int → Bool)
    (vthresh : Int) (r : MMRect) (acc : Img × Option Int) (x : Int) :
    ImgLe (cvtStep raster vthresh r acc x).1 acc.1 := by
  obtain ⟨im, x1⟩ := acc
  cases x1 with
  | none =>
    rw [cvtStep]
    dsimp only
    split_ifs
    · exact ImgLe.refl im
    · exact ImgLe.refl im
  | some a =>
    rw [cvtStep]
    dsimp only
    split_ifs
    · exact ImgLe.refl im
    · exact clearByBoundary_le raster im _

theorem clearByVerticalThickness_le
    (raster : List (Int × Int) → Int → Int → Bool) (vthresh : Int)
    (rect : Rect) (img : Img) :
    ImgLe (clearByVerticalThickness raster vthresh rect img) img := by
  rw [clearByVerticalThickness]
  have hfold := foldl_fst_imgLe _ (cvtStep_le raster vthresh (toMinMaxRect rect))
    (intRangeIncl (toMinMaxRect rect).x.min (toMinMaxRect rect).x.max)
    (img, none)
  cases hend : ((intRangeIncl (toMinMaxRect rect).x.min
      (toMinMaxRect rect).x.max).foldl (cvtStep raster vthresh (toMinMaxRect rect))
      (img, none)).2 with
  | none => simpa [hend] using hfold
  | some a =>
    simp only [hend]
    exact (clearByBoundary_le raster _ _).trans (by simpa [hend] using hfold)

theorem curvesClear_le (raster : List (Int × Int) → Int → Int → Bool)
    (img : Img) (polys : List (List (Int × Int))) :
    ImgLe (curvesClear raster img polys) img :=
  foldl_imgLe _ (clearByBoundary_le raster) polys img

theorem countFg_mono {a b : Img} (h : ImgLe a b) : countFg a ≤ countFg b := by
  obtain ⟨hw, hh, hpx⟩ := h
  rw [countFg, countFg, hw, hh]
  refine Finset.card_le_card ?_
  intro p hp
  simp only [Finset.mem_filter] at hp ⊢
  exact ⟨hp.1, hpx _ _ hp.2⟩

theorem countFg_roi_le (img : Img) (rect : Rect) (sizeW sizeH pad : Int)
    (hw : sizeW = (img.width : Int)) (hh : sizeH = (img.height : Int)) :
    countFg (roi img (enlargeRect rect sizeW sizeH pad)) ≤ countFg img := by
  subst hw hh
  set er := enlargeRect rect (img.width : Int) (img.height : Int) pad with her
  have hx0 : 0 ≤ er.x := le_max_left _ _
  have hy0 : 0 ≤ er.y := le_max_left _ _
  have hxw : er.x + er.width ≤ (img.width : Int) := by
    have : er.width ≤ (img.width : Int) - er.x := min_le_left _ _
    omega
  have hyh : er.y + er.height ≤ (img.height : Int) := by
    have : er.height ≤ (img.height : Int) - er.y := min_le_left _ _
    omega
  rw [countFg, countFg]
  classical
  refine Finset.card_le_card_of_injOn
    (fun p => (p.1 + er.x.toNat, p.2 + er.y.toNat)) ?_ ?_
  · intro p hp
    simp only [Finset.mem_filter, Finset.mem_product, Finset.mem_range,
      roi] at hp ⊢
    obtain ⟨⟨hp1, hp2⟩, hset⟩ := hp
    have h1 : ((p.1 + er.x.toNat : Nat) : Int) = (p.1 : Int) + er.x := by
      omega
    have h2 : ((p.2 + er.y.toNat : Nat) : Int) = (p.2 : Int) + er.y := by
      omega
    refine ⟨⟨by omega, by omega⟩, ?_⟩
    rw [h1, h2]
    exact hset
  · intro p hp q hq hpq
    simp only [Prod.mk.injEq] at hpq
    have hfst : p.1 = q.1 := by omega
    have hsnd : p.2 = q.2 := by omega
    cases p
    cases q
    simp_all

/-- C7: every pixel operation used by overlap correction — curve clearing
via `clearByBoundary`, padding clear, vertical-thickness clear, and HV
thinning — only clears pixels (a pixel set afterwards was set before), so
the foreground pixel count of the line's image is monotonically
non-increasing across `performOverlapCorrection` (which also replaces the
line's image by the padded ROI, itself a sub-region of the original). -/
theorem claim7_overlap_correction_only_clears :
    (∀ (raster : List (Int × Int) → Int → Int → Bool) (img : Img)
        (pts : List (Int × Int)) (x y : Int),
      (clearByBoundary raster img pts).px x y = true → img.px x y = true) ∧
    (∀ (img : Img) (pad x y : Int),
      (clearPadding img pad).px x y = true → img.px x y = true) ∧
    (∀ (raster : List (Int × Int) → Int → Int → Bool) (vthresh : Int)
        (rect : Rect) (img : Img) (x y : Int),
      (clearByVerticalThickness raster vthresh rect img).px x y = true →
        img.px x y = true) ∧
    (∀ (minH minV : Int) (rect : Rect) (mi : Nat) (img : Img) (x y : Int),
      (hvThin minH minV rect mi img).1.px x y = true → img.px x y = true) ∧
    (∀ (raster : List (Int × Int) → Int → Int → Bool) (img : Img)
        (polys : List (List (Int × Int))) (x y : Int),
      (curvesClear raster img polys).px x y = true → img.px x y = true) ∧
    (∀ (raster : List (Int × Int) → Int → Int → Bool) (pad : Int)
        (contours : List Rect) (curvePolys : Nat → List (List (Int × Int)))
        (vthresh minH minV : Int) (boundingRect : Rect) (img0 : Img),
      countFg (performOverlapCorrection raster pad contours curvePolys
          vthresh minH minV boundingRect img0) ≤ countFg img0) := by
  refine ⟨?_, ?_, ?_, ?_, ?_, ?_⟩
  · intro raster img pts x y h
    exact (clearByBoundary_le raster img pts).2.2 x y h
  · intro img pad x y h
    exact (clearPadding_le img pad).2.2 x y h
  · intro raster vthresh rect img x y h
    exact (clearByVerticalThickness_le raster vthresh rect img).2.2 x y h
  · intro minH minV rect mi img x y h
    exact (hvThin_le minH minV rect mi img).2.2 x y h
  · intro raster img polys x y h
    exact (curvesClear_le raster img polys).2.2 x y h
  · intro raster pad contours curvePolys vthresh minH minV brect img0
    rw [performOverlapCorrection]
    have hroi := countFg_roi_le img0 brect (img0.width : Int)
      (img0.height : Int) pad rfl rfl
    refine le_trans (countFg_mono ?_) hroi
    refine ImgLe.trans (foldl_imgLe _ ?_ contours _) ?_
    · intro im c
      split_ifs
      · exact (hvThin_le minH minV c 100 _).trans
          (clearByVerticalThickness_le raster vthresh c im)
      · exact ImgLe.refl im
    · refine ImgLe.trans (clearPadding_le _ pad) ?_
      refine foldl_imgLe _ ?_ _ _
      intro im p
      split_ifs
      · exact curvesClear_le raster im (curvePolys p.2)
      · exact ImgLe.refl im

/-! ### Loop caps of the overlap corrector (C8) -/

/-- `curve.ts`: `const maxForwardProbes = 20`. -/
def maxForwardProbes : Nat := 20

/-- The body of one projection-recovery iteration of
`Line.processNonContainedContours` (compute projections, intersect the
held-back contours with them and insert the adjusted clones) is opaque
here: the loop structure is what the claim is about.  `pnccLoop` mirrors
`for (let i = 0; i < 10; i++) { … if (length unchanged) break; }`,
returning the final contour list and the number of iterations run. -/
def pnccLoop {α : Type} (step : List α → List α) :
    Nat → List α → Nat → List α × Nat
  | 0, cs, iters => (cs, iters)
  | fuel + 1, cs, iters =>
    let cs2 := step cs
    if cs2.length = cs.length then (cs2, iters + 1)
    else pnccLoop step fuel cs2 (iters + 1)

/-- `Line.processNonContainedContours`: return immediately when there are no
held-back contours, else run the capped projection-recovery loop. -/
def processNonContainedContours {α : Type} (step : List α → List α)
    (ncContours : List α) (cs : List α) : List α × Nat :=
  if ncContours.length = 0 then (cs, 0) else pnccLoop step 10 cs 0

/-- The forward-probe loop of `Curve.crossIntersection`
(`for (let i = 0; i < maxForwardProbes; i++, …)`): at each forward step the
two perpendicular edge probes either both succeed (yielding the next start
info) or the walker advances; the probe outcome at step `i` is the opaque
`probe i`.  Returns the result and the number of probes made. -/
def crossProbeAux {α : Type} (probe : Nat → Option α) :
    Nat → Nat → Option α × Nat
  | 0, count => (none, count)
  | fuel + 1, count =>
    match probe count with
    | some a => (some a, count + 1)
    | none => crossProbeAux probe fuel (count + 1)

def crossIntersectionProbes {α : Type} (probe : Nat → Option α) :
    Option α × Nat :=
  crossProbeAux probe maxForwardProbes 0

theorem pnccLoop_iters {α : Type} (step : List α → List α) :
    ∀ (fuel : Nat) (cs : List α) (iters : Nat),
      (pnccLoop step fuel cs iters).2 ≤ iters + fuel := by
  intro fuel
  induction fuel with
  | zero => intro cs iters; simp [pnccLoop]
  | succ fuel ih =>
    intro cs iters
    rw [pnccLoop]
    split_ifs
    · dsimp only
      omega
    · have := ih (step cs) (iters + 1)
      omega

theorem hvThinAux_iters (minH minV : Int) (r : MMRect) :
    ∀ (fuel : Nat) (img : Img) (count : Nat),
      (hvThinAux minH minV r fuel img count).2 ≤ count + fuel := by
  intro fuel
  induction fuel with
  | zero => intro img count; simp [hvThinAux]
  | succ fuel ih =>
    intro img count
    rw [hvThinAux]
    split_ifs
    · dsimp only
      omega
    · have := ih (hvThinIteration minH minV r img).1 (count + 1)
      omega

theorem crossProbeAux_count {α : Type} (probe : Nat → Option α) :
    ∀ (fuel count : Nat),
      (crossProbeAux probe fuel count).2 ≤ count + fuel := by
  intro fuel
  induction fuel with
  | zero => intro count; simp [crossProbeAux]
  | succ fuel ih =>
    intro count
    rw [crossProbeAux]
    cases probe count with
    | some a => dsimp only; omega
    | none =>
      have := ih (count + 1)
      simp only
      omega

/-- C8: the overlap corrector's internal loops are hard-capped.  The
projection-recovery loop performs at most 10 iterations and stops as soon
as an iteration inserts no contour (the length is unchanged); HV thinning
performs at most 100 iterations (its cap) and stops as soon as an iteration
changes nothing; intersection crossing makes at most
`maxForwardProbes = 20` forward probes.  Each loop is therefore a total
function of its inputs. -/
theorem claim8_loop_caps :
    (∀ {α : Type} (step : List α → List α) (nc cs : List α),
      (processNonContainedContours step nc cs).2 ≤ 10) ∧
    (∀ {α : Type} (step : List α → List α) (fuel : Nat) (cs : List α)
        (iters : Nat),
      (step cs).length = cs.length →
      pnccLoop step (fuel + 1) cs iters = (step cs, iters + 1)) ∧
    (∀ (minH minV : Int) (rect : Rect) (img : Img),
      (hvThin minH minV rect 100 img).2 ≤ 100) ∧
    (∀ (minH minV : Int) (r : MMRect) (fuel : Nat) (img : Img) (count : Nat),
      (hvThinIteration minH minV r img).2 = false →
      hvThinAux minH minV r (fuel + 1) img count =
        ((hvThinIteration minH minV r img).1, count + 1)) ∧
    (∀ {α : Type} (probe : Nat → Option α),
      (crossIntersectionProbes probe).2 ≤ maxForwardProbes ∧
        maxForwardProbes = 20) := by
  refine ⟨?_, ?_, ?_, ?_, ?_⟩
  · intro α step nc cs
    rw [processNonContainedContours]
    split_ifs
    · simp
    · simpa using pnccLoop_iters step 10 cs 0
  · intro α step fuel cs iters h
    rw [pnccLoop]
    simp [h]
  · intro minH minV rect img
    simpa using hvThinAux_iters minH minV (toMinMaxRect rect) 100 img 0
  · intro minH minV r fuel img count h
    rw [hvThinAux]
    simp [h]
  · intro α probe
    exact ⟨by simpa using crossProbeAux_count probe maxForwardProbes 0, rfl⟩

/-- Witness for C8: the early-stop clauses at concrete inputs — an identity
step on an empty contour list stops the projection loop after one
iteration, and a blank image stops HV thinning after one iteration. -/
theorem claim8_loop_caps_witness :
    ((id ([] : List Rect)).length = ([] : List Rect).length ∧
      pnccLoop id (9 + 1) ([] : List Rect) 0 = (id [], 0 + 1)) ∧
    ((hvThinIteration 3 3 ⟨⟨0, 1⟩, ⟨0, 1⟩⟩
        { width := 2, height := 2, px := fun _ _ => false }).2 = false ∧
      hvThinAux 3 3 ⟨⟨0, 1⟩, ⟨0, 1⟩⟩ (99 + 1)
          { width := 2, height := 2, px := fun _ _ => false } 0 =
        ((hvThinIteration 3 3 ⟨⟨0, 1⟩, ⟨0, 1⟩⟩
            { width := 2, height := 2, px := fun _ _ => false }).1, 0 + 1)) :=
  ⟨⟨rfl, claim8_loop_caps.2.1 id 9 [] 0 rfl⟩,
    ⟨rfl, claim8_loop_caps.2.2.2.1 3 3 ⟨⟨0, 1⟩, ⟨0, 1⟩⟩ 99 _ 0 rfl⟩⟩

/-! ## Rectangle predicates (`src/util.ts`) used by the character segmenter -/

/-- `Util.rectContains`: `r1` contains `r2`. -/
def rectContains (r1 r2 : Rect) : Bool :=
  if r1.x > r2.x then false
  else if r1.x + r1.width < r2.x + r2.width then false
  else if r1.y > r2.y then false
  else if r1.y + r1.height < r2.y + r2.height then false
  else true

/-- `Util.xIntersects`. -/
def xIntersects (r1 r2 : Rect) : Bool :=
  if r1.x > r2.x + r2.width then false
  else if r1.x + r1.width < r2.x then false
  else true

/-- `Util.yIntersects`. -/
def yIntersects (r1 r2 : Rect) : Bool :=
  if r1.y > r2.y + r2.height then false
  else if r1.y + r1.height < r2.y then false
  else true

/-- `Util.intersects`. -/
def rectIntersects (r1 r2 : Rect) : Bool :=
  xIntersects r1 r2 && yIntersects r1 r2

/-- `Util.yContains`: `r1` contains `r2` on the Y axis. -/
def yContains (r1 r2 : Rect) : Bool :=
  if r1.y > r2.y then false
  else if r1.y + r1.height < r2.y + r2.height then false
  else true

/-- JavaScript `Number.MAX_VALUE` (an exact integer: `(2^53 − 1)·2^971`),
the initial min accumulator of `getBoundingRectOfRects`. -/
def jsMaxValue : Int := (2 ^ 53 - 1) * 2 ^ 971

/-- `Util.getBoundingRectOfRects`: the rectangle around all the rectangles
(`⟨0,0,0,0⟩` for an empty list; min accumulators start at
`Number.MAX_VALUE`, max accumulators at 0). -/
def getBoundingRectOfRects (rects : List Rect) : Rect :=
  if rects.length = 0 then ⟨0, 0, 0, 0⟩
  else
    let st := rects.foldl
      (fun (acc : Int × Int × Int × Int) r =>
        (min acc.1 r.x, min acc.2.1 r.y,
          max acc.2.2.1 (r.x + r.width), max acc.2.2.2 (r.y + r.height)))
      (jsMaxValue, jsMaxValue, 0, 0)
    ⟨st.1, st.2.1, st.2.2.1 - st.1, st.2.2.2 - st.2.1⟩

/-! ## Character segmenter (`src/char.ts` class `Char`, `src/line.ts`
`Line.setTypes` and `Line.buildBoundingRect`)

A `Char` as the segmenter manipulates it: index, type (4 until assigned),
bounding rectangle, and the vertex lists of its contours (`mat.data32S`
pairs, used by `Char.getMinAndMaxX`).  `Line.setTypes` receives the
characters emitted by the `CharIterator`, whose `type` field is always the
initial 4.  The roots always come from `Line.setRoots` (the constructor
sets them to the initial contour's rectangle), so the `getDefaultRoots`
fallback branch is unreachable and the roots enter as a parameter. -/

structure CharT where
  idx : Int
  type : Int
  rect : Rect
  contours : List (List (Int × Int))
deriving DecidableEq, Repr

/-- `Math.round(h / 2)` for an integer `h`: `⌊(h + 1) / 2⌋`
(`Math.round` rounds halves toward `+∞`). -/
def jsRoundHalf (h : Int) : Int := Int.fdiv (h + 1) 2

/-- One vertex visit of `Char.getMinAndMaxX`: include the vertex's X when
its Y lies in `[minY, maxY]`. -/
def mmUpdate (minY maxY : Int) (acc : Option (Int × Int)) (p : Int × Int) :
    Option (Int × Int) :=
  if minY ≤ p.2 ∧ p.2 ≤ maxY then
    match acc with
    | none => some (p.1, p.1)
    | some (mn, mx) => some (min mn p.1, max mx p.1)
  else acc

/-- `Char.getMinAndMaxX`: the min and max X of the character's contour
vertices whose Y lies in `[minY, maxY]`, or `none` when no vertex does. -/
def getMinAndMaxX (contours : List (List (Int × Int))) (minY maxY : Int) :
    Option (Int × Int) :=
  contours.foldl (fun acc pts => pts.foldl (mmUpdate minY maxY) acc) none

/-- `Char.adjust`: snap X/width to the vertex extents inside the
rectangle's Y band (when any vertex is in the band), and always snap
Y/height to the rectangle's. -/
def charAdjust (c : CharT) (r : Rect) : CharT :=
  let c1 :=
    match getMinAndMaxX c.contours r.y (r.y + r.height) with
    | some (mn, mx) =>
      { c with rect := { c.rect with x := mn, width := mx - mn + 1 } }
    | none => c
  { c1 with rect := { c1.rect with y := r.y, height := r.height } }

/-- `Char.setType`: set the type; a type-3 assignment with an adjust
character also snaps the rectangle to it. -/
def setTypeC (c : CharT) (t : Int) (adjustChar : Option CharT) : CharT :=
  let c1 := { c with type := t }
  match adjustChar with
  | some a => if t = 3 then charAdjust c1 a.rect else c1
  | none => c1

/-- `Char.getEstimateRect`: the rectangle expected to hold this character's
neighbor, padded and sized from the configuration when `containment`. -/
def getEstimateRect (c : CharT) (maxCharWidth maxCharHeight : Int)
    (right containment : Bool) : Rect :=
  let lPad : Int := if containment then 5 else 0
  let rPad : Int := if containment then 5 else 0
  let tPad : Int := if containment then 5 else 0
  let bPad : Int := if containment then 5 else 0
  let width := if containment then maxCharWidth else c.rect.width
  let height := if containment then maxCharHeight else c.rect.height
  let X := if right then c.rect.x + c.rect.width - lPad
    else c.rect.x - width - lPad - rPad
  let Y := c.rect.y - tPad
  let W := width + lPad + rPad
  let H := height + tPad + bPad
  ⟨X, Y, W, H⟩

/-- `Char.isNear`: the neighbor intersects the unpadded estimate rectangle
and its bottom extends below its own middle (always true for positive
heights). -/
def charIsNear (mw mh : Int) (c other : CharT) (right : Bool) : Bool :=
  let estimateRect := getEstimateRect c mw mh right false
  let intersects := rectIntersects other.rect estimateRect
  let middleOfNeighbor := other.rect.y + jsRoundHalf other.rect.height
  let isLowEnough :=
    decide (other.rect.y + other.rect.height > middleOfNeighbor)
  intersects && isLowEnough

/-- `Char.contains`: the padded containment estimate rectangle contains the
neighbor on the Y axis. -/
def charContains (mw mh : Int) (c other : CharT) (right : Bool) : Bool :=
  yContains (getEstimateRect c mw mh right true) other.rect

/-- `Line.setTypes`, type-1 pass: a character contained in any root
rectangle becomes type 1. -/
def setType1 (roots : List Rect) (cs : List CharT) : List CharT :=
  cs.map fun c =>
    if roots.any (fun r => rectContains r c.rect) then setTypeC c 1 none
    else c

/-- `Line.setTypes`, one directional type-2 pass: a still-untyped character
whose tracked neighbor `lc` contains it becomes type 2; `lc` advances to
the current character when it is typed `≤ 2` and does not X-intersect the
previous `lc`. -/
def type2Pass (mw mh : Int) (right : Bool) :
    Option CharT → List CharT → List CharT
  | _, [] => []
  | lc, c :: rest =>
    let c1 :=
      if c.type > 2 then
        match lc with
        | some l =>
          if charContains mw mh l c right then setTypeC c 2 none else c
        | none => c
      else c
    let lcOk :=
      match lc with
      | none => true
      | some l => !(xIntersects c1.rect l.rect)
    let lc1 := if decide (c1.type ≤ 2) && lcOk then some c1 else lc
    c1 :: type2Pass mw mh right lc1 rest

/-- `Line.setTypes`, one directional rectangle-adjust pass: still-untyped
characters are snapped to the last typed character's Y band; typed
characters advance `lc`. -/
def adjustPass : Option CharT → List CharT → List CharT
  | _, [] => []
  | lc, c :: rest =>
    if c.type > 3 then
      let c1 :=
        match lc with
        | some l => charAdjust c l.rect
        | none => c
      c1 :: adjustPass lc rest
    else c :: adjustPass (some c) rest

/-- `Line.setTypes`, one directional type-3 pass: a still-untyped character
near the tracked neighbor becomes type 3 (snapping to the neighbor); any
character typed `≤ 3` advances `lc`. -/
def type3Pass (mw mh : Int) (right : Bool) :
    Option CharT → List CharT → List CharT
  | _, [] => []
  | lc, c :: rest =>
    let c1 :=
      if c.type > 3 then
        match lc with
        | some l =>
          if charIsNear mw mh l c right then setTypeC c 3 (some l) else c
        | none => c
      else c
    let lc1 := if c1.type ≤ 3 then some c1 else lc
    c1 :: type3Pass mw mh right lc1 rest

/-- `chars.sort((a, b) => a.rect.x - b.rect.x)`: stable sort ascending
by X. -/
def sortCharsByX (cs : List CharT) : List CharT :=
  cs.insertionSort (fun a b => a.rect.x ≤ b.rect.x)

/-- The reindex loop after the re-sort (`c.setIndex(i)`). -/
def reindexChars (i : Int) : List CharT → List CharT
  | [] => []
  | c :: rest => { c with idx := i } :: reindexChars (i + 1) rest

/-- The first half of `Line.setTypes`, up to and including the re-sort and
reindex: type-1 pass; type-2 passes left-to-right then right-to-left;
rectangle-adjust passes in both directions; re-sort by X; reindex. -/
def setTypesPre (mw mh : Int) (roots : List Rect) (chars : List CharT) :
    List CharT :=
  let cs := setType1 roots chars
  let cs := type2Pass mw mh true none cs
  let cs := (type2Pass mw mh false none cs.reverse).reverse
  let cs := adjustPass none cs
  let cs := (adjustPass none cs.reverse).reverse
  reindexChars 0 (sortCharsByX cs)

/-- The second half of `Line.setTypes`: type-3 passes left-to-right then
right-to-left, then drop the remaining type-4 characters. -/
def setTypesPost (mw mh : Int) (cs : List CharT) : List CharT :=
  let cs2 := type3Pass mw mh true none cs
  let cs3 := (type3Pass mw mh false none cs2.reverse).reverse
  cs3.filter fun c => decide (c.type ≤ 3)

/-- `Line.setTypes`: the full pipeline (empty input returned as is). -/
def setTypes (mw mh : Int) (roots : List Rect) (chars : List CharT) :
    List CharT :=
  if chars.length = 0 then chars
  else setTypesPost mw mh (setTypesPre mw mh roots chars)

/-- The min/max accumulator of `Line.buildBoundingRect`
(`minX = mat.cols`, `minY = mat.rows`, `maxX = maxY = 0` initially). -/
structure BBAcc where
  minX : Int
  minY : Int
  maxX : Int
  maxY : Int
deriving DecidableEq, Repr

/-- One character's contribution in `Line.buildBoundingRect`: type ≥ 4 is
skipped; every remaining type contributes to the X extents; only types ≤ 2
contribute to the Y extents. -/
def bbStep (acc : BBAcc) (c : CharT) : BBAcc :=
  if 4 ≤ c.type then acc
  else
    let acc1 := { acc with
      minX := min acc.minX c.rect.x,
      maxX := max acc.maxX (c.rect.x + c.rect.width) }
    if 2 < c.type then acc1
    else { acc1 with
      minY := min acc1.minY c.rect.y,
      maxY := max acc1.maxY (c.rect.y + c.rect.height) }

/-- `Line.buildBoundingRect`: fold the typed characters' extents, pad with
`lPad = rPad = 5`, `tPad = bPad = 0`, clamp the origin at 0 and the extent
to the remaining image; when the resulting width or height is nonpositive,
fall back to the bounding union of all on-line contour rectangles. -/
def buildBoundingRect (sizeW sizeH : Int) (chars : List CharT)
    (contourRects : List Rect) : Rect :=
  let st := chars.foldl bbStep ⟨sizeW, sizeH, 0, 0⟩
  let X := max 0 (st.minX - 5)
  let Y := max 0 (st.minY - 0)
  let W := min (sizeW - X) (st.maxX - st.minX + 5 + 5)
  let H := min (sizeH - Y) (st.maxY - st.minY + 0 + 0)
  if W ≤ 0 ∨ H ≤ 0 then getBoundingRectOfRects contourRects
  else ⟨X, Y, W, H⟩

/-- The bounding rectangle as the spec's words of C5 describe it: pad the
typed extents by 5 on the left and right and 0 on the top and bottom, then
clamp (intersect) the padded rectangle to the image.  Kept separate from
`buildBoundingRect` (translated from the source) for comparison. -/
def specPadClampRect (sizeW sizeH minX minY maxX maxY : Int) : Rect :=
  let x1 := max 0 (minX - 5)
  let y1 := max 0 (minY - 0)
  let x2 := min sizeW (maxX + 5)
  let y2 := min sizeH (maxY + 0)
  ⟨x1, y1, x2 - x1, y2 - y1⟩

/-! ### Characterizing `buildBoundingRect` (C5) -/

/-- The characters contributing X extents: type < 4. -/
def bbTyped (c : CharT) : Bool := !(decide (4 ≤ c.type))

/-- The characters contributing Y extents: type < 4 and type ≤ 2. -/
def bbTypedY (c : CharT) : Bool :=
  !(decide (4 ≤ c.type)) && !(decide (2 < c.type))

theorem foldl_min_le_init : ∀ (l : List Int) (a : Int), l.foldl min a ≤ a := by
  intro l
  induction l with
  | nil => intro a; exact le_refl a
  | cons b bs ih =>
    intro a
    exact le_trans (ih (min a b)) (min_le_left a b)

theorem foldl_min_le_mem :
    ∀ (l : List Int) (a b : Int), b ∈ l → l.foldl min a ≤ b := by
  intro l
  induction l with
  | nil => intro a b h; exact absurd h (List.not_mem_nil b)
  | cons c cs ih =>
    intro a b h
    rcases List.mem_cons.mp h with h | h
    · subst h
      exact le_trans (foldl_min_le_init cs (min a b)) (min_le_right a b)
    · exact ih (min a c) b h

theorem le_foldl_min :
    ∀ (l : List Int) (a c : Int), c ≤ a → (∀ b ∈ l, c ≤ b) →
      c ≤ l.foldl min a := by
  intro l
  induction l with
  | nil => intro a c h _; exact h
  | cons d ds ih =>
    intro a c h hall
    exact ih (min a d) c (le_min h (hall d (List.mem_cons_self d ds)))
      (fun b hb => hall b (List.mem_cons_of_mem d hb))

theorem init_le_foldl_max : ∀ (l : List Int) (a : Int), a ≤ l.foldl max a := by
  intro l
  induction l with
  | nil => intro a; exact le_refl a
  | cons b bs ih =>
    intro a
    exact le_trans (le_max_left a b) (ih (max a b))

theorem mem_le_foldl_max :
    ∀ (l : List Int) (a b : Int), b ∈ l → b ≤ l.foldl max a := by
  intro l
  induction l with
  | nil => intro a b h; exact absurd h (List.not_mem_nil b)
  | cons c cs ih =>
    intro a b h
    rcases List.mem_cons.mp h with h | h
    · subst h
      exact le_trans (le_max_right a b) (init_le_foldl_max cs (max a b))
    · exact ih (max a c) b h

theorem foldl_max_le :
    ∀ (l : List Int) (a c : Int), a ≤ c → (∀ b ∈ l, b ≤ c) →
      l.foldl max a ≤ c := by
  intro l
  induction l with
  | nil => intro a c h _; exact h
  | cons d ds ih =>
    intro a c h hall
    exact ih (max a d) c (max_le h (hall d (List.mem_cons_self d ds)))
      (fun b hb => hall b (List.mem_cons_of_mem d hb))

/-- The imperative min/max fold of `buildBoundingRect` equals the four
declarative folds over the typed sublists: X extents over the type-1/2/3
characters, Y extents over the type-1/2 characters only. -/
theorem foldl_bbStep_eq :
    ∀ (chars : List CharT) (acc : BBAcc),
      chars.foldl bbStep acc =
        ⟨((chars.filter bbTyped).map fun c => c.rect.x).foldl min acc.minX,
         ((chars.filter bbTypedY).map fun c => c.rect.y).foldl min acc.minY,
         ((chars.filter bbTyped).map fun c => c.rect.x + c.rect.width).foldl
           max acc.maxX,
         ((chars.filter bbTypedY).map fun c => c.rect.y + c.rect.height).foldl
           max acc.maxY⟩ := by
  intro chars
  induction chars with
  | nil => intro acc; rfl
  | cons c cs ih =>
    intro acc
    rw [List.foldl_cons, ih (bbStep acc c)]
    by_cases h4 : 4 ≤ c.type
    · have ht : bbTyped c = false := by simp [bbTyped, h4]
      have hty : bbTypedY c = false := by simp [bbTypedY, h4]
      rw [List.filter_cons_of_neg (by simp [ht]),
        List.filter_cons_of_neg (by simp [hty])]
      rw [bbStep, if_pos h4]
    · by_cases h2 : 2 < c.type
      · have ht : bbTyped c = true := by simp [bbTyped, h4]
        have hty : bbTypedY c = false := by simp [bbTypedY, h2]
        rw [List.filter_cons_of_pos (by simp [ht]),
          List.filter_cons_of_neg (by simp [hty])]
        rw [bbStep, if_neg h4]
        simp only [if_pos h2, List.map_cons, List.foldl_cons]
      · have ht : bbTyped c = true := by simp [bbTyped, h4]
        have hty : bbTypedY c = true := by simp [bbTypedY, h4, h2]
        rw [List.filter_cons_of_pos (by simp [ht]),
          List.filter_cons_of_pos (by simp [hty])]
        rw [bbStep, if_neg h4]
        simp only [if_neg h2, List.map_cons, List.foldl_cons]

/-- A rectangle lies within the image. -/
def inImage (sizeW sizeH : Int) (r : Rect) : Prop :=
  0 ≤ r.x ∧ 1 ≤ r.width ∧ r.x + r.width ≤ sizeW ∧
    0 ≤ r.y ∧ 1 ≤ r.height ∧ r.y + r.height ≤ sizeH

/-- C5 (counterexample): a single type-1 character at `x = 2` in a 100×100
image: the extents are `minX = 2, minY = 3, maxX = 6, maxY = 8`;
`buildBoundingRect` keeps the full padded width `(maxX − minX) + 10` after
clamping the origin at 0, producing width 14 (right edge 14), whereas
padding by 5 per side and clamping to the image — the claim's wording —
gives width 11 (right edge 11). -/
theorem claim5_counterexample :
    (([⟨0, 1, ⟨2, 3, 4, 5⟩, []⟩] : List CharT).foldl bbStep
        ⟨100, 100, 0, 0⟩ = ⟨2, 3, 6, 8⟩) ∧
    buildBoundingRect 100 100 [⟨0, 1, ⟨2, 3, 4, 5⟩, []⟩] [] =
      ⟨0, 3, 14, 5⟩ ∧
    specPadClampRect 100 100 2 3 6 8 = ⟨0, 3, 11, 5⟩ ∧
    (⟨0, 3, 14, 5⟩ : Rect) ≠ ⟨0, 3, 11, 5⟩ := by
  decide

/-- C5 (amended): the bounding rectangle takes min/max X over the
type-1/2/3 rectangles and min/max Y over the type-1/2 rectangles only; the
left edge is `max(0, minX−5)` and the top edge `max(0, minY)`; the width is
`min(imageWidth − left, (maxX−minX)+10)` — so left padding lost to the
origin clamp widens the rectangle on the right — and the height is
`min(imageHeight − top, maxY−minY)`; whenever that width or height is
nonpositive — in particular exactly when no type-1/2 character exists —
the result is instead the bounding union of all on-line contour
rectangles. -/
theorem claim5_amended_boundingRect (sizeW sizeH : Int) (chars : List CharT)
    (contourRects : List Rect)
    (hin : ∀ c ∈ chars, inImage sizeW sizeH c.rect) :
    (chars.filter bbTypedY = [] →
      buildBoundingRect sizeW sizeH chars contourRects =
        getBoundingRectOfRects contourRects) ∧
    (chars.filter bbTypedY ≠ [] →
      buildBoundingRect sizeW sizeH chars contourRects =
        (let minX :=
          ((chars.filter bbTyped).map fun c => c.rect.x).foldl min sizeW
         let minY :=
          ((chars.filter bbTypedY).map fun c => c.rect.y).foldl min sizeH
         let maxX :=
          ((chars.filter bbTyped).map fun c =>
            c.rect.x + c.rect.width).foldl max 0
         let maxY :=
          ((chars.filter bbTypedY).map fun c =>
            c.rect.y + c.rect.height).foldl max 0
         let X := max 0 (minX - 5)
         let Y := max 0 (minY - 0)
         ⟨X, Y, min (sizeW - X) (maxX - minX + 5 + 5),
          min (sizeH - Y) (maxY - minY + 0 + 0)⟩)) := by
  constructor
  · intro hempty
    rw [buildBoundingRect, foldl_bbStep_eq, hempty]
    simp only [List.map_nil, List.foldl_nil]
    rw [if_pos]
    right
    omega
  · intro hne
    obtain ⟨w, hw⟩ := List.exists_mem_of_ne_nil _ hne
    have hwc : w ∈ chars := (List.mem_filter.mp hw).1
    have hwt : bbTypedY w = true := (List.mem_filter.mp hw).2
    have hwtyped : bbTyped w = true := by
      simp only [bbTypedY, Bool.and_eq_true] at hwt
      exact hwt.1
    obtain ⟨hx0, hw1, hxw, hy0, hh1, hyh⟩ := hin w hwc
    have hxmem : w.rect.x ∈ (chars.filter bbTyped).map fun c => c.rect.x :=
      List.mem_map_of_mem _ (List.mem_filter.mpr ⟨hwc, hwtyped⟩)
    have hx2mem : w.rect.x + w.rect.width ∈
        (chars.filter bbTyped).map fun c => c.rect.x + c.rect.width :=
      List.mem_map_of_mem _ (List.mem_filter.mpr ⟨hwc, hwtyped⟩)
    have hymem : w.rect.y ∈ (chars.filter bbTypedY).map fun c => c.rect.y :=
      List.mem_map_of_mem _ hw
    have hy2mem : w.rect.y + w.rect.height ∈
        (chars.filter bbTypedY).map fun c => c.rect.y + c.rect.height :=
      List.mem_map_of_mem _ hw
    have hminX_le := foldl_min_le_mem _ sizeW _ hxmem
    have hminX_0 : (0 : Int) ≤
        ((chars.filter bbTyped).map fun c => c.rect.x).foldl min sizeW := by
      refine le_foldl_min _ _ _ (by omega) ?_
      intro b hb
      obtain ⟨c, hc, hcb⟩ := List.mem_map.mp hb
      obtain ⟨b1, b2, b3, b4, b5, b6⟩ := hin c (List.mem_filter.mp hc).1
      have hcb2 : _ = b := hcb
      omega
    have hmaxX_ge := mem_le_foldl_max _ 0 _ hx2mem
    have hmaxX_le : ((chars.filter bbTyped).map fun c =>
        c.rect.x + c.rect.width).foldl max 0 ≤ sizeW := by
      refine foldl_max_le _ _ _ (by omega) ?_
      intro b hb
      obtain ⟨c, hc, hcb⟩ := List.mem_map.mp hb
      obtain ⟨b1, b2, b3, b4, b5, b6⟩ := hin c (List.mem_filter.mp hc).1
      have hcb2 : _ = b := hcb
      omega
    have hminY_le := foldl_min_le_mem _ sizeH _ hymem
    have hminY_0 : (0 : Int) ≤
        ((chars.filter bbTypedY).map fun c => c.rect.y).foldl min sizeH := by
      refine le_foldl_min _ _ _ (by omega) ?_
      intro b hb
      obtain ⟨c, hc, hcb⟩ := List.mem_map.mp hb
      obtain ⟨b1, b2, b3, b4, b5, b6⟩ := hin c (List.mem_filter.mp hc).1
      have hcb2 : _ = b := hcb
      omega
    have hmaxY_ge := mem_le_foldl_max _ 0 _ hy2mem
    have hmaxY_le : ((chars.filter bbTypedY).map fun c =>
        c.rect.y + c.rect.height).foldl max 0 ≤ sizeH := by
      refine foldl_max_le _ _ _ (by omega) ?_
      intro b hb
      obtain ⟨c, hc, hcb⟩ := List.mem_map.mp hb
      obtain ⟨b1, b2, b3, b4, b5, b6⟩ := hin c (List.mem_filter.mp hc).1
      have hcb2 : _ = b := hcb
      omega
    rw [buildBoundingRect, foldl_bbStep_eq]
    dsimp only
    split_ifs with hc
    · exfalso
      omega
    · rfl

/-- Witness for C5 at the single-character instance of the
counterexample. -/
theorem claim5_amended_boundingRect_witness :
    (∀ c ∈ ([⟨0, 1, ⟨2, 3, 4, 5⟩, []⟩] : List CharT),
      inImage 100 100 c.rect) ∧
    ([⟨0, 1, ⟨2, 3, 4, 5⟩, []⟩] : List CharT).filter bbTypedY ≠ [] ∧
    buildBoundingRect 100 100 [⟨0, 1, ⟨2, 3, 4, 5⟩, []⟩] [] =
      ⟨0, 3, 14, 5⟩ := by
  refine ⟨?_, ?_, ?_⟩
  · intro c hc
    simp only [List.mem_singleton] at hc
    subst hc
    exact ⟨by norm_num, by norm_num, by norm_num, by norm_num, by norm_num,
      by norm_num⟩
  · decide
  · have h := (claim5_amended_boundingRect 100 100
      [⟨0, 1, ⟨2, 3, 4, 5⟩, []⟩] []
      (by
        intro c hc
        simp only [List.mem_singleton] at hc
        subst hc
        exact ⟨by norm_num, by norm_num, by norm_num, by norm_num,
          by norm_num, by norm_num⟩)).2 (by decide)
    rw [h]
    decide

/-! ### Invariants of the segmenter output (C6) -/

/-- Rectangle `a` lies inside rectangle `b`. -/
def rectInside (a b : Rect) : Prop :=
  b.x ≤ a.x ∧ a.x + a.width ≤ b.x + b.width ∧
    b.y ≤ a.y ∧ a.y + a.height ≤ b.y + b.height

/-- C6 (counterexample): the emitted rectangles need not be strictly
ascending in X, nor even non-decreasing.  First instance: two characters
both contained in a root tie at `x = 10`.  Second instance: a character
snapped by the type-3 assignment after the final re-sort moves to `x = 2`,
left of its predecessor at `x = 5` — all other parts of the claim (types in
{1,2,3}, rectangles inside the line's bounding rectangle) hold in both
instances. -/
theorem claim6_counterexample :
    ((setTypes 28 30 [⟨0, 0, 40, 40⟩]
        [⟨0, 4, ⟨10, 0, 5, 10⟩, []⟩, ⟨1, 4, ⟨10, 20, 5, 10⟩, []⟩]).map
        (fun c => (c.type, c.rect.x)) = [(1, 10), (1, 10)] ∧
      ¬ List.Chain' (fun a b : CharT => a.rect.x < b.rect.x)
        (setTypes 28 30 [⟨0, 0, 40, 40⟩]
          [⟨0, 4, ⟨10, 0, 5, 10⟩, []⟩, ⟨1, 4, ⟨10, 20, 5, 10⟩, []⟩])) ∧
    ((setTypes 28 30 [⟨0, 0, 40, 12⟩]
        [⟨0, 4, ⟨0, 2, 35, 40⟩, [[(28, 3), (2, 6), (6, 8)]]⟩,
         ⟨1, 4, ⟨5, 0, 4, 4⟩, []⟩,
         ⟨2, 4, ⟨30, 3, 4, 4⟩, []⟩]).map (fun c => (c.type, c.rect.x)) =
        [(1, 5), (3, 2), (1, 30)] ∧
      ¬ List.Pairwise (fun a b : CharT => a.rect.x ≤ b.rect.x)
        (setTypes 28 30 [⟨0, 0, 40, 12⟩]
          [⟨0, 4, ⟨0, 2, 35, 40⟩, [[(28, 3), (2, 6), (6, 8)]]⟩,
           ⟨1, 4, ⟨5, 0, 4, 4⟩, []⟩,
           ⟨2, 4, ⟨30, 3, 4, 4⟩, []⟩])) := by
  refine ⟨⟨by decide, ?_⟩, ⟨by decide, ?_⟩⟩
  · intro hch
    have hx : (setTypes 28 30 [⟨0, 0, 40, 40⟩]
        [⟨0, 4, ⟨10, 0, 5, 10⟩, []⟩, ⟨1, 4, ⟨10, 20, 5, 10⟩, []⟩]).map
        (fun c => c.rect.x) = [10, 10] := by decide
    have h2 := (List.chain'_map (fun c : CharT => c.rect.x)).mpr hch
    rw [hx] at h2
    simp [List.chain'_cons] at h2
  · intro hpw
    have hx : (setTypes 28 30 [⟨0, 0, 40, 12⟩]
        [⟨0, 4, ⟨0, 2, 35, 40⟩, [[(28, 3), (2, 6), (6, 8)]]⟩,
         ⟨1, 4, ⟨5, 0, 4, 4⟩, []⟩,
         ⟨2, 4, ⟨30, 3, 4, 4⟩, []⟩]).map (fun c => c.rect.x) =
        [5, 2, 30] := by decide
    have h2 := (List.pairwise_map).mpr hpw
    rw [hx] at h2
    simp at h2

/-- The per-character invariant carried through the segmenter passes: the
type is one of 1–4, the rectangle lies inside the image with positive
extents, and every contour vertex's X is an in-image column. -/
def goodC (sizeW sizeH : Int) (c : CharT) : Prop :=
  (c.type = 1 ∨ c.type = 2 ∨ c.type = 3 ∨ c.type = 4) ∧
    inImage sizeW sizeH c.rect ∧
    ∀ pl ∈ c.contours, ∀ p ∈ pl, 0 ≤ p.1 ∧ p.1 ≤ sizeW - 1

/-- The tracked-neighbor invariant. -/
def lcPred (P : CharT → Prop) : Option CharT → Prop
  | none => True
  | some l₀ => P l₀

theorem setType1_pres {P : CharT → Prop}
    (h1 : ∀ c, P c → P (setTypeC c 1 none)) (roots : List Rect) :
    ∀ (cs : List CharT), (∀ c ∈ cs, P c) →
      ∀ c ∈ setType1 roots cs, P c := by
  intro cs hall c hc
  rw [setType1] at hc
  obtain ⟨c₀, hc₀, hmap⟩ := List.mem_map.mp hc
  subst hmap
  split_ifs
  · exact h1 c₀ (hall c₀ hc₀)
  · exact hall c₀ hc₀

theorem type2Pass_pres {P : CharT → Prop} (mw mh : Int) (right : Bool)
    (h2 : ∀ c, P c → P (setTypeC c 2 none)) :
    ∀ (lc : Option CharT) (l : List CharT), (∀ c ∈ l, P c) →
      ∀ c ∈ type2Pass mw mh right lc l, P c := by
  intro lc l
  induction l generalizing lc with
  | nil =>
    intro _ c hc
    rw [type2Pass] at hc
    exact absurd hc (List.not_mem_nil c)
  | cons d ds ih =>
    intro hall c hc
    have hPd := hall d (List.mem_cons_self d ds)
    have hall' : ∀ c' ∈ ds, P c' :=
      fun c' hc' => hall c' (List.mem_cons_of_mem d hc')
    cases lc with
    | none =>
      rw [type2Pass.eq_def] at hc
      dsimp only at hc
      rcases List.mem_cons.mp hc with h | h
      · subst h
        split_ifs <;> exact hPd
      · exact ih _ hall' c h
    | some l₀ =>
      rw [type2Pass.eq_def] at hc
      dsimp only at hc
      rcases List.mem_cons.mp hc with h | h
      · subst h
        split_ifs
        · exact h2 d hPd
        · exact hPd
        · exact hPd
      · exact ih _ hall' c h

theorem adjustPass_pres {P : CharT → Prop}
    (hadj : ∀ c l₀, P c → P l₀ → P (charAdjust c l₀.rect)) :
    ∀ (lc : Option CharT) (l : List CharT), lcPred P lc →
      (∀ c ∈ l, P c) → ∀ c ∈ adjustPass lc l, P c := by
  intro lc l
  induction l generalizing lc with
  | nil =>
    intro _ _ c hc
    rw [adjustPass] at hc
    exact absurd hc (List.not_mem_nil c)
  | cons d ds ih =>
    intro hlc hall c hc
    have hPd := hall d (List.mem_cons_self d ds)
    have hall' : ∀ c' ∈ ds, P c' :=
      fun c' hc' => hall c' (List.mem_cons_of_mem d hc')
    cases lc with
    | none =>
      rw [adjustPass.eq_def] at hc
      dsimp only at hc
      split_ifs at hc with hgt
      · rcases List.mem_cons.mp hc with h | h
        · subst h
          exact hPd
        · exact ih none trivial hall' c h
      · rcases List.mem_cons.mp hc with h | h
        · subst h
          exact hPd
        · exact ih (some d) hPd hall' c h
    | some l₀ =>
      rw [adjustPass.eq_def] at hc
      dsimp only at hc
      split_ifs at hc with hgt
      · rcases List.mem_cons.mp hc with h | h
        · subst h
          exact hadj d l₀ hPd hlc
        · exact ih (some l₀) hlc hall' c h
      · rcases List.mem_cons.mp hc with h | h
        · subst h
          exact hPd
        · exact ih (some d) hPd hall' c h

theorem type3Pass_pres {P : CharT → Prop} (mw mh : Int) (right : Bool)
    (h3 : ∀ c l₀, P c → P l₀ → P (setTypeC c 3 (some l₀))) :
    ∀ (lc : Option CharT) (l : List CharT), lcPred P lc →
      (∀ c ∈ l, P c) → ∀ c ∈ type3Pass mw mh right lc l, P c := by
  intro lc l
  induction l generalizing lc with
  | nil =>
    intro _ _ c hc
    rw [type3Pass] at hc
    exact absurd hc (List.not_mem_nil c)
  | cons d ds ih =>
    intro hlc hall c hc
    have hPd := hall d (List.mem_cons_self d ds)
    have hall' : ∀ c' ∈ ds, P c' :=
      fun c' hc' => hall c' (List.mem_cons_of_mem d hc')
    cases lc with
    | none =>
      rw [type3Pass.eq_def] at hc
      dsimp only at hc
      rcases List.mem_cons.mp hc with h | h
      · subst h
        split_ifs <;> exact hPd
      · refine ih _ ?_ hall' c h
        split_ifs <;> first | exact hPd | trivial
    | some l₀ =>
      rw [type3Pass.eq_def] at hc
      dsimp only at hc
      rcases List.mem_cons.mp hc with h | h
      · subst h
        split_ifs
        · exact h3 d l₀ hPd hlc
        · exact hPd
        · exact hPd
      · refine ih _ ?_ hall' c h
        split_ifs <;>
          first | exact h3 d l₀ hPd hlc | exact hPd | exact hlc

theorem reindexChars_mem :
    ∀ (i : Int) (l : List CharT) (c : CharT), c ∈ reindexChars i l →
      ∃ c₀ ∈ l, c.type = c₀.type ∧ c.rect = c₀.rect ∧
        c.contours = c₀.contours := by
  intro i l
  induction l generalizing i with
  | nil =>
    intro c hc
    rw [reindexChars] at hc
    exact absurd hc (List.not_mem_nil c)
  | cons d ds ih =>
    intro c hc
    rw [reindexChars] at hc
    rcases List.mem_cons.mp hc with h | h
    · subst h
      exact ⟨d, List.mem_cons_self d ds, rfl, rfl, rfl⟩
    · obtain ⟨c₀, hc₀, h1, h2, h3⟩ := ih (i + 1) c h
      exact ⟨c₀, List.mem_cons_of_mem d hc₀, h1, h2, h3⟩

theorem sortCharsByX_mem (cs : List CharT) (c : CharT) :
    c ∈ sortCharsByX cs ↔ c ∈ cs :=
  (List.perm_insertionSort _ cs).mem_iff

/-- Membership transport through `setTypesPre` for a predicate preserved by
all its passes (assuming the predicate ignores `idx`). -/
theorem setTypesPre_pres {P : CharT → Prop} (mw mh : Int)
    (h1 : ∀ c, P c → P (setTypeC c 1 none))
    (h2 : ∀ c, P c → P (setTypeC c 2 none))
    (hadj : ∀ c l₀, P c → P l₀ → P (charAdjust c l₀.rect))
    (hidx : ∀ c i, P c → P { c with idx := i })
    (roots : List Rect) (chars : List CharT)
    (hall : ∀ c ∈ chars, P c) :
    ∀ c ∈ setTypesPre mw mh roots chars, P c := by
  intro c hc
  rw [setTypesPre] at hc
  have s1 := setType1_pres h1 roots chars hall
  have s2 := type2Pass_pres mw mh true h2 none _ s1
  have s3 : ∀ c' ∈ (type2Pass mw mh false none
      (type2Pass mw mh true none (setType1 roots chars)).reverse).reverse,
      P c' := by
    intro c' hc'
    exact type2Pass_pres mw mh false h2 none _
      (fun x hx => s2 x (List.mem_reverse.mp hx)) c'
      (List.mem_reverse.mp hc')
  have s4 := adjustPass_pres hadj none _ trivial s3
  have s5 : ∀ c' ∈ (adjustPass none (adjustPass none
      ((type2Pass mw mh false none (type2Pass mw mh true none
        (setType1 roots chars)).reverse).reverse)).reverse).reverse,
      P c' := by
    intro c' hc'
    exact adjustPass_pres hadj none _ trivial
      (fun x hx => s4 x (List.mem_reverse.mp hx)) c'
      (List.mem_reverse.mp hc')
  obtain ⟨c₀, hc₀, ht, hr, hcont⟩ := reindexChars_mem 0 _ c hc
  have hc₀' := s5 c₀ ((sortCharsByX_mem _ c₀).mp hc₀)
  have : c = { c₀ with idx := c.idx } := by
    cases c
    cases c₀
    simp_all
  rw [this]
  exact hidx c₀ c.idx hc₀'

/-- Membership transport through `setTypesPost`. -/
theorem setTypesPost_pres {P : CharT → Prop} (mw mh : Int)
    (h3 : ∀ c l₀, P c → P l₀ → P (setTypeC c 3 (some l₀)))
    (cs : List CharT) (hall : ∀ c ∈ cs, P c) :
    ∀ c ∈ setTypesPost mw mh cs, P c := by
  intro c hc
  rw [setTypesPost] at hc
  have hf := (List.mem_filter.mp hc).1
  have t1 := type3Pass_pres mw mh true h3 none cs trivial hall
  have t2 : ∀ c' ∈ (type3Pass mw mh false none
      (type3Pass mw mh true none cs).reverse).reverse, P c' := by
    intro c' hc'
    exact type3Pass_pres mw mh false h3 none _ trivial
      (fun x hx => t1 x (List.mem_reverse.mp hx)) c'
      (List.mem_reverse.mp hc')
  exact t2 c hf

/-- One `mmUpdate` visit keeps the accumulator's extents within the vertex
X bound. -/
theorem mmUpdate_ok (B y1 y2 : Int) (acc : Option (Int × Int))
    (p : Int × Int) (hp : 0 ≤ p.1 ∧ p.1 ≤ B)
    (hacc : ∀ mn mx, acc = some (mn, mx) → 0 ≤ mn ∧ mn ≤ mx ∧ mx ≤ B) :
    ∀ mn mx, mmUpdate y1 y2 acc p = some (mn, mx) →
      0 ≤ mn ∧ mn ≤ mx ∧ mx ≤ B := by
  intro mn mx h
  cases acc with
  | none =>
    rw [mmUpdate] at h
    split_ifs at h
    simp at h
    omega
  | some pr =>
    obtain ⟨a, b⟩ := pr
    have hab := hacc a b rfl
    rw [mmUpdate] at h
    split_ifs at h
    · simp at h
      omega
    · simp at h
      omega

theorem foldl_mmUpdate_ok (B y1 y2 : Int) :
    ∀ (pts : List (Int × Int)) (acc : Option (Int × Int)),
      (∀ p ∈ pts, 0 ≤ p.1 ∧ p.1 ≤ B) →
      (∀ mn mx, acc = some (mn, mx) → 0 ≤ mn ∧ mn ≤ mx ∧ mx ≤ B) →
      ∀ mn mx, pts.foldl (mmUpdate y1 y2) acc = some (mn, mx) →
        0 ≤ mn ∧ mn ≤ mx ∧ mx ≤ B := by
  intro pts
  induction pts with
  | nil => intro acc _ hacc mn mx h; exact hacc mn mx h
  | cons p ps ih =>
    intro acc hall hacc mn mx h
    rw [List.foldl_cons] at h
    exact ih (mmUpdate y1 y2 acc p)
      (fun q hq => hall q (List.mem_cons_of_mem p hq))
      (mmUpdate_ok B y1 y2 acc p (hall p (List.mem_cons_self p ps)) hacc)
      mn mx h

theorem foldl2_mmUpdate_ok (B y1 y2 : Int) :
    ∀ (cls : List (List (Int × Int))) (acc : Option (Int × Int)),
      (∀ pl ∈ cls, ∀ p ∈ pl, 0 ≤ p.1 ∧ p.1 ≤ B) →
      (∀ mn mx, acc = some (mn, mx) → 0 ≤ mn ∧ mn ≤ mx ∧ mx ≤ B) →
      ∀ mn mx,
        cls.foldl (fun a pts => pts.foldl (mmUpdate y1 y2) a) acc =
          some (mn, mx) → 0 ≤ mn ∧ mn ≤ mx ∧ mx ≤ B := by
  intro cls
  induction cls with
  | nil => intro acc _ hacc mn mx h; exact hacc mn mx h
  | cons pl pls ih =>
    intro acc hall hacc mn mx h
    rw [List.foldl_cons] at h
    exact ih (pl.foldl (mmUpdate y1 y2) acc)
      (fun q hq => hall q (List.mem_cons_of_mem pl hq))
      (foldl_mmUpdate_ok B y1 y2 pl acc
        (hall pl (List.mem_cons_self pl pls)) hacc) mn mx h

/-- When `getMinAndMaxX` finds vertices in the band, its extents are
ordered and within the vertex X bound. -/
theorem getMinAndMaxX_ok (B y1 y2 : Int)
    (contours : List (List (Int × Int)))
    (hb : ∀ pl ∈ contours, ∀ p ∈ pl, 0 ≤ p.1 ∧ p.1 ≤ B) :
    ∀ mn mx, getMinAndMaxX contours y1 y2 = some (mn, mx) →
      0 ≤ mn ∧ mn ≤ mx ∧ mx ≤ B := by
  intro mn mx h
  rw [getMinAndMaxX] at h
  exact foldl2_mmUpdate_ok B y1 y2 contours none hb
    (fun _ _ hx => absurd hx (by simp)) mn mx h

/-- `Char.adjust` always snaps Y and height to the band rectangle and
never changes the type or the contours. -/
theorem charAdjust_yh (c : CharT) (r : Rect) :
    (charAdjust c r).rect.y = r.y ∧ (charAdjust c r).rect.height = r.height ∧
      (charAdjust c r).type = c.type ∧
      (charAdjust c r).contours = c.contours := by
  rcases hg : getMinAndMaxX c.contours r.y (r.y + r.height) with _ | ⟨mn, mx⟩ <;>
    simp [charAdjust, hg]

/-- `Char.adjust` either keeps X and width or snaps them to the vertex
extents inside the band. -/
theorem charAdjust_x (c : CharT) (r : Rect) :
    ((charAdjust c r).rect.x = c.rect.x ∧
      (charAdjust c r).rect.width = c.rect.width) ∨
    (∃ mn mx, getMinAndMaxX c.contours r.y (r.y + r.height) = some (mn, mx) ∧
      (charAdjust c r).rect.x = mn ∧
      (charAdjust c r).rect.width = mx - mn + 1) := by
  rcases hg : getMinAndMaxX c.contours r.y (r.y + r.height) with _ | ⟨mn, mx⟩
  · exact Or.inl ⟨by simp [charAdjust, hg], by simp [charAdjust, hg]⟩
  · exact Or.inr ⟨mn, mx, rfl, by simp [charAdjust, hg], by simp [charAdjust, hg]⟩

/-- `Char.adjust` keeps the rectangle inside the image when the band
rectangle's Y extent is in the image and the contour vertices sit on
in-image columns. -/
theorem charAdjust_inImage (sizeW sizeH : Int) (c : CharT) (r : Rect)
    (hc : inImage sizeW sizeH c.rect)
    (hr : 0 ≤ r.y ∧ 1 ≤ r.height ∧ r.y + r.height ≤ sizeH)
    (hct : ∀ pl ∈ c.contours, ∀ p ∈ pl, 0 ≤ p.1 ∧ p.1 ≤ sizeW - 1) :
    inImage sizeW sizeH (charAdjust c r).rect := by
  obtain ⟨hy, hh, hty, hco⟩ := charAdjust_yh c r
  obtain ⟨a1, a2, a3, a4, a5, a6⟩ := hc
  obtain ⟨hr1, hr2, hr3⟩ := hr
  rcases charAdjust_x c r with ⟨hx, hw⟩ | ⟨mn, mx, hg, hx, hw⟩
  · simp only [inImage, hx, hw, hy, hh]
    omega
  · have hb := getMinAndMaxX_ok (sizeW - 1) r.y (r.y + r.height) c.contours
      hct mn mx hg
    simp only [inImage, hx, hw, hy, hh]
    omega

theorem setTypeC_none (c : CharT) (t : Int) :
    setTypeC c t none = { c with type := t } := rfl

theorem setTypeC3_eq (c a : CharT) :
    setTypeC c 3 (some a) = charAdjust { c with type := 3 } a.rect := by
  simp [setTypeC]

/-- The Y band of a character. -/
def yhOf (c : CharT) : Int × Int := (c.rect.y, c.rect.height)

/-- A type-3 assignment takes the adjust character's Y band, sets the type
to 3 and keeps the contours. -/
theorem setTypeC3_facts (c a : CharT) :
    yhOf (setTypeC c 3 (some a)) = (a.rect.y, a.rect.height) ∧
      (setTypeC c 3 (some a)).type = 3 ∧
      (setTypeC c 3 (some a)).contours = c.contours := by
  rw [setTypeC3_eq]
  obtain ⟨hy, hh, hty, hco⟩ := charAdjust_yh { c with type := 3 } a.rect
  refine ⟨?_, ?_, ?_⟩
  · simp only [yhOf, hy, hh]
  · rw [hty]
  · rw [hco]

/-- Through a type-3 pass, every character typed `≤ 3` has a Y band from
`S`, provided that held on entry and the tracked neighbor's band is in
`S`. -/
theorem type3Pass_yh (mw mh : Int) (right : Bool) (S : List (Int × Int)) :
    ∀ (lc : Option CharT) (l : List CharT),
      lcPred (fun l₀ => yhOf l₀ ∈ S) lc →
      (∀ c ∈ l, c.type ≤ 3 → yhOf c ∈ S) →
      ∀ c ∈ type3Pass mw mh right lc l, c.type ≤ 3 → yhOf c ∈ S := by
  intro lc l
  induction l generalizing lc with
  | nil =>
    intro _ _ c hc
    rw [type3Pass] at hc
    exact absurd hc (List.not_mem_nil c)
  | cons d ds ih =>
    intro hlc hall c hc
    have hQd := hall d (List.mem_cons_self d ds)
    have hall' : ∀ c' ∈ ds, c'.type ≤ 3 → yhOf c' ∈ S :=
      fun c' hc' => hall c' (List.mem_cons_of_mem d hc')
    cases lc with
    | none =>
      rw [type3Pass.eq_def] at hc
      dsimp only at hc
      rcases List.mem_cons.mp hc with h | h
      · subst h
        split_ifs <;> exact hQd
      · refine ih _ ?_ hall' c h
        split_ifs with h1 h2 h3
        all_goals first
          | trivial
          | exact hQd h2
          | exact hQd h3
    | some l₀ =>
      rw [type3Pass.eq_def] at hc
      dsimp only at hc
      rcases List.mem_cons.mp hc with h | h
      · subst h
        split_ifs with h1 h2
        all_goals first
          | (intro _
             rw [(setTypeC3_facts d l₀).1]
             exact hlc)
          | exact hQd
      · refine ih _ ?_ hall' c h
        split_ifs with h1 h2 h3 h4 h5
        all_goals first
          | exact (by
              rw [(setTypeC3_facts d l₀).1]
              exact hlc : yhOf (setTypeC d 3 (some l₀)) ∈ S)
          | exact hQd h3
          | exact hQd h4
          | exact hQd h5
          | exact hlc

/-- A type-3 pass leaves every character already typed `≤ 2` in place. -/
theorem type3Pass_keep2 (mw mh : Int) (right : Bool) :
    ∀ (lc : Option CharT) (l : List CharT) (c : CharT), c ∈ l →
      c.type ≤ 2 → c ∈ type3Pass mw mh right lc l := by
  intro lc l
  induction l generalizing lc with
  | nil => intro c hc _; exact absurd hc (List.not_mem_nil c)
  | cons d ds ih =>
    intro c hc hle
    rw [type3Pass.eq_def]
    dsimp only
    rcases List.mem_cons.mp hc with h | h
    · subst h
      rw [if_neg (show ¬ (c.type > 3) by omega)]
      exact List.mem_cons_self c _
    · exact List.mem_cons_of_mem _ (ih _ c h hle)

/-- A type-3 pass that assigns no type 3 (none appears in its output) is
the identity. -/
theorem type3Pass_id_of_no3 (mw mh : Int) (right : Bool) :
    ∀ (lc : Option CharT) (l : List CharT),
      (∀ c ∈ type3Pass mw mh right lc l, c.type ≠ 3) →
      type3Pass mw mh right lc l = l := by
  intro lc l
  induction l generalizing lc with
  | nil => intro _; rw [type3Pass]
  | cons d ds ih =>
    intro hno
    cases lc with
    | none =>
      rw [type3Pass.eq_def] at hno ⊢
      dsimp only at hno ⊢
      rw [ite_self] at hno ⊢
      rw [ih _ (fun c hcm => hno c (List.mem_cons_of_mem d hcm))]
    | some l₀ =>
      rw [type3Pass.eq_def] at hno ⊢
      dsimp only at hno ⊢
      by_cases h1 : d.type > 3
      · by_cases h2 : charIsNear mw mh l₀ d right = true
        · rw [if_pos h1, if_pos h2] at hno
          exact absurd (setTypeC3_facts d l₀).2.1
            (hno _ (List.mem_cons_self _ _))
        · rw [if_pos h1, if_neg h2] at hno ⊢
          rw [if_neg (show ¬ (d.type ≤ 3) by omega)] at hno ⊢
          rw [ih _ (fun c hcm => hno c (List.mem_cons_of_mem d hcm))]
      · rw [if_neg h1] at hno ⊢
        rw [ih _ (fun c hcm => hno c (List.mem_cons_of_mem d hcm))]

/-- Reindexing does not change the X coordinates. -/
theorem reindexChars_x :
    ∀ (i : Int) (l : List CharT),
      (reindexChars i l).map (fun c => c.rect.x) =
        l.map (fun c => c.rect.x) := by
  intro i l
  induction l generalizing i with
  | nil => rfl
  | cons d ds ih => simp [reindexChars, ih]

/-- The final re-sort produces a list non-decreasing in X. -/
theorem sortCharsByX_pairwise (cs : List CharT) :
    List.Pairwise (fun a b : CharT => a.rect.x ≤ b.rect.x)
      (sortCharsByX cs) := by
  haveI : IsTotal CharT (fun a b => a.rect.x ≤ b.rect.x) :=
    ⟨fun a b => le_total a.rect.x b.rect.x⟩
  haveI : IsTrans CharT (fun a b => a.rect.x ≤ b.rect.x) :=
    ⟨fun a b c hab hbc => le_trans hab hbc⟩
  exact List.sorted_insertionSort _ cs

theorem reindexChars_pairwise (i : Int) (l : List CharT)
    (h : List.Pairwise (fun a b : CharT => a.rect.x ≤ b.rect.x) l) :
    List.Pairwise (fun a b : CharT => a.rect.x ≤ b.rect.x)
      (reindexChars i l) := by
  have h1 : List.Pairwise (· ≤ ·) (l.map fun c : CharT => c.rect.x) :=
    List.pairwise_map.mpr h
  rw [← reindexChars_x i l] at h1
  exact List.pairwise_map.mp h1

/-- Every character emitted by the type-3 half of the segmenter shares its
Y band with an emitted character of type `≤ 2`, provided no character was
typed 3 beforehand. -/
theorem setTypesPost_band (mw mh : Int) (cs : List CharT)
    (hcs : ∀ c ∈ cs, c.type ≠ 3) :
    ∀ c ∈ setTypesPost mw mh cs,
      ∃ w ∈ setTypesPost mw mh cs, w.type ≤ 2 ∧
        w.rect.y = c.rect.y ∧ w.rect.height = c.rect.height := by
  intro c hc
  have hyh : yhOf c ∈
      (cs.filter fun c' => decide (c'.type ≤ 2)).map yhOf := by
    have hbase : ∀ c' ∈ cs, c'.type ≤ 3 →
        yhOf c' ∈ (cs.filter fun c' => decide (c'.type ≤ 2)).map yhOf := by
      intro c' hc' hle
      have h3 := hcs c' hc'
      exact List.mem_map_of_mem _
        (List.mem_filter.mpr ⟨hc', decide_eq_true (by omega)⟩)
    have ht1 := type3Pass_yh mw mh true _ none cs trivial hbase
    have ht2 := type3Pass_yh mw mh false _ none
      (type3Pass mw mh true none cs).reverse trivial
      (fun c' hc' => ht1 c' (List.mem_reverse.mp hc'))
    rw [setTypesPost] at hc
    have hm := List.mem_filter.mp hc
    have hle := of_decide_eq_true hm.2
    exact ht2 _ (List.mem_reverse.mp hm.1) hle
  obtain ⟨w, hwf, hweq⟩ := List.mem_map.mp hyh
  have hwm := List.mem_filter.mp hwf
  have hwle : w.type ≤ 2 := of_decide_eq_true hwm.2
  refine ⟨w, ?_, hwle, ?_, ?_⟩
  · rw [setTypesPost]
    refine List.mem_filter.mpr ⟨?_, decide_eq_true (by omega)⟩
    rw [List.mem_reverse]
    exact type3Pass_keep2 mw mh false none _ w
      (List.mem_reverse.mpr (type3Pass_keep2 mw mh true none cs w hwm.1 hwle))
      hwle
  · have := congrArg Prod.fst hweq
    simpa [yhOf] using this
  · have := congrArg Prod.snd hweq
    simpa [yhOf] using this

/-- A character whose Y band is shared with an in-list character of type
`≤ 2` lies inside the bounding rectangle built from the list. -/
theorem boundingRect_contains (sizeW sizeH : Int) (out : List CharT)
    (crs : List Rect) (c w : CharT)
    (hcm : c ∈ out) (hwm : w ∈ out)
    (hin : ∀ c' ∈ out, inImage sizeW sizeH c'.rect)
    (hcT : bbTyped c = true) (hwT : bbTypedY w = true)
    (hwy : w.rect.y = c.rect.y) (hwh : w.rect.height = c.rect.height) :
    rectInside c.rect (buildBoundingRect sizeW sizeH out crs) := by
  obtain ⟨hx0, hw1, hxw, hy0, hh1, hyh⟩ := hin c hcm
  obtain ⟨gx0, gw1, gxw, gy0, gh1, gyh⟩ := hin w hwm
  have hcf : c ∈ out.filter bbTyped := List.mem_filter.mpr ⟨hcm, hcT⟩
  have hwf : w ∈ out.filter bbTypedY := List.mem_filter.mpr ⟨hwm, hwT⟩
  have hxmem : c.rect.x ∈ (out.filter bbTyped).map fun c' => c'.rect.x :=
    List.mem_map_of_mem _ hcf
  have hx2mem : c.rect.x + c.rect.width ∈
      (out.filter bbTyped).map fun c' => c'.rect.x + c'.rect.width :=
    List.mem_map_of_mem _ hcf
  have hymem : w.rect.y ∈ (out.filter bbTypedY).map fun c' => c'.rect.y :=
    List.mem_map_of_mem _ hwf
  have hy2mem : w.rect.y + w.rect.height ∈
      (out.filter bbTypedY).map fun c' => c'.rect.y + c'.rect.height :=
    List.mem_map_of_mem _ hwf
  have hminX_le := foldl_min_le_mem _ sizeW _ hxmem
  have hminX_0 : (0 : Int) ≤
      ((out.filter bbTyped).map fun c' => c'.rect.x).foldl min sizeW := by
    refine le_foldl_min _ _ _ (by omega) ?_
    intro b hb
    obtain ⟨c', hc', hcb⟩ := List.mem_map.mp hb
    obtain ⟨b1, b2, b3, b4, b5, b6⟩ := hin c' (List.mem_filter.mp hc').1
    have hcb2 : _ = b := hcb
    omega
  have hmaxX_ge := mem_le_foldl_max _ 0 _ hx2mem
  have hmaxX_le : ((out.filter bbTyped).map fun c' =>
      c'.rect.x + c'.rect.width).foldl max 0 ≤ sizeW := by
    refine foldl_max_le _ _ _ (by omega) ?_
    intro b hb
    obtain ⟨c', hc', hcb⟩ := List.mem_map.mp hb
    obtain ⟨b1, b2, b3, b4, b5, b6⟩ := hin c' (List.mem_filter.mp hc').1
    have hcb2 : _ = b := hcb
    omega
  have hminY_le := foldl_min_le_mem _ sizeH _ hymem
  have hminY_0 : (0 : Int) ≤
      ((out.filter bbTypedY).map fun c' => c'.rect.y).foldl min sizeH := by
    refine le_foldl_min _ _ _ (by omega) ?_
    intro b hb
    obtain ⟨c', hc', hcb⟩ := List.mem_map.mp hb
    obtain ⟨b1, b2, b3, b4, b5, b6⟩ := hin c' (List.mem_filter.mp hc').1
    have hcb2 : _ = b := hcb
    omega
  have hmaxY_ge := mem_le_foldl_max _ 0 _ hy2mem
  have hmaxY_le : ((out.filter bbTypedY).map fun c' =>
      c'.rect.y + c'.rect.height).foldl max 0 ≤ sizeH := by
    refine foldl_max_le _ _ _ (by omega) ?_
    intro b hb
    obtain ⟨c', hc', hcb⟩ := List.mem_map.mp hb
    obtain ⟨b1, b2, b3, b4, b5, b6⟩ := hin c' (List.mem_filter.mp hc').1
    have hcb2 : _ = b := hcb
    omega
  rw [buildBoundingRect, foldl_bbStep_eq]
  dsimp only
  split_ifs with hcnd
  · exfalso
    omega
  · refine ⟨?_, ?_, ?_, ?_⟩ <;> dsimp only <;> omega

/-- C6 (amended): for a finalized line whose segmenter input consists of
still-untyped (type-4) characters with in-image rectangles and contour
vertices on in-image columns, every character `setTypes` emits has type 1,
2 or 3; every emitted rectangle lies inside the bounding rectangle
`buildBoundingRect` computes from the emitted characters (whatever the
fallback contour rectangles are); and the emitted characters are sorted
non-decreasingly — not strictly — by X whenever none of them has type 3:
ties survive the sort, and the type-3 X snap happens after the final
re-sort, so a type-3 character can even move left of its predecessor (see
the counterexample). -/
theorem claim6_amended (mw mh sizeW sizeH : Int) (roots : List Rect)
    (chars : List CharT)
    (h4 : ∀ c ∈ chars, c.type = 4)
    (him : ∀ c ∈ chars, inImage sizeW sizeH c.rect)
    (hct : ∀ c ∈ chars, ∀ pl ∈ c.contours, ∀ p ∈ pl,
      0 ≤ p.1 ∧ p.1 ≤ sizeW - 1) :
    (∀ c ∈ setTypes mw mh roots chars,
      c.type = 1 ∨ c.type = 2 ∨ c.type = 3) ∧
    (∀ (crs : List Rect) (c : CharT), c ∈ setTypes mw mh roots chars →
      rectInside c.rect
        (buildBoundingRect sizeW sizeH (setTypes mw mh roots chars) crs)) ∧
    ((∀ c ∈ setTypes mw mh roots chars, c.type ≠ 3) →
      List.Pairwise (fun a b : CharT => a.rect.x ≤ b.rect.x)
        (setTypes mw mh roots chars)) := by
  by_cases hlen : chars.length = 0
  · have hnil : chars = [] := List.eq_nil_of_length_eq_zero hlen
    subst hnil
    exact ⟨fun c hc => absurd hc (List.not_mem_nil c),
      fun crs c hc => absurd hc (List.not_mem_nil c),
      fun _ => List.Pairwise.nil⟩
  · have hsetTypes : setTypes mw mh roots chars =
        setTypesPost mw mh (setTypesPre mw mh roots chars) := by
      rw [setTypes, if_neg hlen]
    have hpreG : ∀ c ∈ setTypesPre mw mh roots chars,
        (c.type = 1 ∨ c.type = 2 ∨ c.type = 4) ∧
          inImage sizeW sizeH c.rect ∧
          (∀ pl ∈ c.contours, ∀ p ∈ pl, 0 ≤ p.1 ∧ p.1 ≤ sizeW - 1) := by
      refine setTypesPre_pres mw mh ?_ ?_ ?_ ?_ roots chars ?_
      · intro c hP
        obtain ⟨_, hb, hcb⟩ := hP
        rw [setTypeC_none]
        exact ⟨Or.inl rfl, hb, hcb⟩
      · intro c hP
        obtain ⟨_, hb, hcb⟩ := hP
        rw [setTypeC_none]
        exact ⟨Or.inr (Or.inl rfl), hb, hcb⟩
      · intro c l₀ hPc hPl
        obtain ⟨htc, hbc, hcc⟩ := hPc
        obtain ⟨_, hbl, _⟩ := hPl
        obtain ⟨hy, hh, hty, hco⟩ := charAdjust_yh c l₀.rect
        obtain ⟨e1, e2, e3, e4, e5, e6⟩ := hbl
        refine ⟨?_, ?_, ?_⟩
        · rw [hty]; exact htc
        · exact charAdjust_inImage sizeW sizeH c l₀.rect hbc ⟨e4, e5, e6⟩ hcc
        · rw [hco]; exact hcc
      · intro c i hP
        exact hP
      · intro c hc
        exact ⟨Or.inr (Or.inr (h4 c hc)), him c hc, hct c hc⟩
    have houtG : ∀ c ∈ setTypesPost mw mh (setTypesPre mw mh roots chars),
        (c.type = 1 ∨ c.type = 2 ∨ c.type = 3 ∨ c.type = 4) ∧
          inImage sizeW sizeH c.rect ∧
          (∀ pl ∈ c.contours, ∀ p ∈ pl, 0 ≤ p.1 ∧ p.1 ≤ sizeW - 1) := by
      refine setTypesPost_pres mw mh ?_ _ ?_
      · intro c l₀ hPc hPl
        obtain ⟨_, hbc, hcc⟩ := hPc
        obtain ⟨_, hbl, _⟩ := hPl
        obtain ⟨hyh2, hty, hco⟩ := setTypeC3_facts c l₀
        obtain ⟨e1, e2, e3, e4, e5, e6⟩ := hbl
        refine ⟨Or.inr (Or.inr (Or.inl hty)), ?_, ?_⟩
        · rw [setTypeC3_eq]
          exact charAdjust_inImage sizeW sizeH { c with type := 3 } l₀.rect
            hbc ⟨e4, e5, e6⟩ hcc
        · rw [hco]; exact hcc
      · intro c hc
        obtain ⟨ht, hb, hcb⟩ := hpreG c hc
        refine ⟨?_, hb, hcb⟩
        rcases ht with h | h | h
        exacts [Or.inl h, Or.inr (Or.inl h), Or.inr (Or.inr (Or.inr h))]
    have hle3 : ∀ c ∈ setTypesPost mw mh (setTypesPre mw mh roots chars),
        c.type ≤ 3 := by
      intro c hc
      rw [setTypesPost] at hc
      exact of_decide_eq_true (List.mem_filter.mp hc).2
    have hwit := setTypesPost_band mw mh (setTypesPre mw mh roots chars)
      (fun c hc => by
        rcases (hpreG c hc).1 with h | h | h <;> omega)
    refine ⟨?_, ?_, ?_⟩
    · intro c hc
      rw [hsetTypes] at hc
      have h1 := (houtG c hc).1
      have h2 := hle3 c hc
      rcases h1 with h | h | h | h
      · exact Or.inl h
      · exact Or.inr (Or.inl h)
      · exact Or.inr (Or.inr h)
      · exfalso; omega
    · intro crs c hc
      rw [hsetTypes] at hc ⊢
      obtain ⟨w, hwm, hwle, hwy, hwh⟩ := hwit c hc
      refine boundingRect_contains sizeW sizeH _ crs c w hc hwm
        (fun c' hc' => (houtG c' hc').2.1) ?_ ?_ hwy hwh
      · have h2 := hle3 c hc
        simp only [bbTyped, Bool.not_eq_true', decide_eq_false_iff_not]
        omega
      · simp only [bbTypedY, Bool.and_eq_true, Bool.not_eq_true',
          decide_eq_false_iff_not]
        constructor <;> omega
    · intro hno
      rw [hsetTypes] at hno ⊢
      have hno2 : ∀ c ∈ type3Pass mw mh false none
          (type3Pass mw mh true none
            (setTypesPre mw mh roots chars)).reverse,
          c.type ≠ 3 := by
        intro c hcm h3
        refine hno c ?_ h3
        rw [setTypesPost]
        exact List.mem_filter.mpr
          ⟨List.mem_reverse.mpr hcm, decide_eq_true (by omega)⟩
      have hid2 := type3Pass_id_of_no3 mw mh false _ _ hno2
      have hno1 : ∀ c ∈ type3Pass mw mh true none
          (setTypesPre mw mh roots chars), c.type ≠ 3 := by
        intro c hcm h3
        refine hno c ?_ h3
        rw [setTypesPost]
        refine List.mem_filter.mpr ⟨?_, decide_eq_true (by omega)⟩
        rw [hid2]
        exact List.mem_reverse.mpr (List.mem_reverse.mpr hcm)
      have hid1 := type3Pass_id_of_no3 mw mh true _ _ hno1
      have hpw : List.Pairwise (fun a b : CharT => a.rect.x ≤ b.rect.x)
          (setTypesPre mw mh roots chars) := by
        rw [setTypesPre]
        exact reindexChars_pairwise 0 _ (sortCharsByX_pairwise _)
      rw [setTypesPost, hid2, List.reverse_reverse, hid1]
      exact List.Pairwise.sublist (List.filter_sublist _) hpw

/-- Witness for C6 (amended) at the tie instance of the counterexample. -/
theorem claim6_amended_witness :
    (∀ c ∈ ([⟨0, 4, ⟨10, 0, 5, 10⟩, []⟩, ⟨1, 4, ⟨10, 20, 5, 10⟩, []⟩] :
        List CharT), c.type = 4) ∧
    (∀ c ∈ ([⟨0, 4, ⟨10, 0, 5, 10⟩, []⟩, ⟨1, 4, ⟨10, 20, 5, 10⟩, []⟩] :
        List CharT), inImage 40 40 c.rect) ∧
    (∀ c ∈ ([⟨0, 4, ⟨10, 0, 5, 10⟩, []⟩, ⟨1, 4, ⟨10, 20, 5, 10⟩, []⟩] :
        List CharT), ∀ pl ∈ c.contours, ∀ p ∈ pl,
        0 ≤ p.1 ∧ p.1 ≤ 40 - 1) ∧
    (∀ c ∈ setTypes 28 30 [⟨0, 0, 40, 40⟩]
        [⟨0, 4, ⟨10, 0, 5, 10⟩, []⟩, ⟨1, 4, ⟨10, 20, 5, 10⟩, []⟩],
      c.type = 1 ∨ c.type = 2 ∨ c.type = 3) := by
  have h4 : ∀ c ∈ ([⟨0, 4, ⟨10, 0, 5, 10⟩, []⟩,
      ⟨1, 4, ⟨10, 20, 5, 10⟩, []⟩] : List CharT), c.type = 4 := by decide
  have him : ∀ c ∈ ([⟨0, 4, ⟨10, 0, 5, 10⟩, []⟩,
      ⟨1, 4, ⟨10, 20, 5, 10⟩, []⟩] : List CharT),
      inImage 40 40 c.rect := by
    intro c hc
    simp only [List.mem_cons, List.not_mem_nil, or_false] at hc
    rcases hc with h | h <;> subst h <;>
      exact ⟨by norm_num, by norm_num, by norm_num, by norm_num, by norm_num,
        by norm_num⟩
  have hctb : ∀ c ∈ ([⟨0, 4, ⟨10, 0, 5, 10⟩, []⟩,
      ⟨1, 4, ⟨10, 20, 5, 10⟩, []⟩] : List CharT),
      ∀ pl ∈ c.contours, ∀ p ∈ pl, 0 ≤ p.1 ∧ p.1 ≤ 40 - 1 := by decide
  exact ⟨h4, him, hctb,
    (claim6_amended 28 30 40 40 [⟨0, 0, 40, 40⟩] _ h4 him hctb).1⟩

end FinOcr
